import Mathlib

/-!
# Verification of the 2D Voronoi cell kernel (`src/cell_2d.cc`)

A shallow embedding of the `voronoicell_2d` class.  The two parallel arenas
(`pts` for coordinates, `ed` for the doubly linked cyclic adjacency) are
modelled as total maps; the memory-growth routines of the source
(`add_memory_vertices`, `add_memory_ds`) only copy existing content into a
larger buffer, so capacity is not modelled.  Coordinates are exact rationals;
`perimeter` is real-valued because it takes square roots.  The delete stack
`ds` is scratch storage that a `plane` call never reads from a previous call,
so it is modelled as a local list inside `plane`.

Loops of the source that walk the cyclic vertex list are modelled with an
explicit fuel parameter; `plane` returns `none` when fuel runs out (the C code
would not terminate on such inputs).
-/

/-- Modelled from the spec: `tolerance` is "a small positive constant
(implementation-defined)" declared in the header `cell_2d.hh`, which is not
among the sources.  It is fixed here to the exact rational `1/100`; no theorem
below depends on its magnitude, only on its positivity, and the small
denominator keeps concrete kernel evaluation tractable. -/
def tolerance : ℚ := 1 / 100

/-- The state of a `voronoicell_2d`: vertex count `p`, coordinate arena `pts`
(`(x₀, y₀, x₁, y₁, …)`, stored at twice the geometric scale) and adjacency
arena `ed` (`(succ₀, pred₀, succ₁, pred₁, …)`).  Entries of `ed` are integers
because the clipping kernel stores the tombstone `-1` there. -/
structure Cell where
  p : ℕ
  pts : ℕ → ℚ
  ed : ℕ → ℤ

namespace Cell

/-- `ed[2*v]`, the successor of vertex `v`, read back as an array index. -/
def edS (s : Cell) (v : ℕ) : ℕ := (s.ed (2 * v)).toNat

/-- `ed[2*v+1]`, the predecessor of vertex `v`, read back as an array index. -/
def edP (s : Cell) (v : ℕ) : ℕ := (s.ed (2 * v + 1)).toNat

/-- Modelled from the spec: the signed-distance classifier `pos` lives in the
missing header; per §4.3 it is `x·X(v) + y·Y(v) − rsq` over the stored scaled
coordinates. -/
def pos (s : Cell) (x y rsq : ℚ) (qp : ℕ) : ℚ :=
  x * s.pts (2 * qp) + y * s.pts (2 * qp + 1) - rsq

/-- `voronoicell_2d::init` (cell_2d.cc:63-71): seed the cell as a rectangle,
four vertices stored at twice the given coordinates, adjacency the 4-cycle. -/
def init (s : Cell) (xmin xmax ymin ymax : ℚ) : Cell where
  p := 4
  pts :=
    Function.update (Function.update (Function.update (Function.update
    (Function.update (Function.update (Function.update (Function.update
      s.pts 0 (2 * xmin)) 1 (2 * ymin)) 2 (2 * xmax)) 3 (2 * ymin))
      4 (2 * xmax)) 5 (2 * ymax)) 6 (2 * xmin)) 7 (2 * ymax)
  ed :=
    Function.update (Function.update (Function.update (Function.update
    (Function.update (Function.update (Function.update (Function.update
      s.ed 0 1) 1 3) 2 2) 3 0) 4 3) 5 1) 6 0) 7 2

/-- A freshly constructed cell: `p` is uninitialized garbage in the source, but
every query guards on `p == 0` or is only called after `init`; we model the
fresh arena content as zeros. -/
def emptyCell : Cell := ⟨0, fun _ => 0, fun _ => 0⟩

/-- `voronoicell_2d::max_radius_squared` (cell_2d.cc:109-118).  Note that the
source has no `p == 0` guard: the first vertex slot is read unconditionally,
and the loop runs over vertices `1, …, p-1`. -/
def max_radius_squared (s : Cell) : ℚ :=
  ((List.range s.p).drop 1).foldl
    (fun r i =>
      let sq := s.pts (2 * i) * s.pts (2 * i) + s.pts (2 * i + 1) * s.pts (2 * i + 1)
      if sq > r then sq else r)
    (s.pts 0 * s.pts 0 + s.pts 1 * s.pts 1)

/-- The do-while loop of `voronoicell_2d::perimeter` (cell_2d.cc:238-244),
with explicit fuel: sums Euclidean lengths of edges `k → succ(k)` until the
walk returns to vertex 0. -/
noncomputable def perimLoop (s : Cell) : ℕ → ℕ → ℝ
  | 0, _ => 0
  | fuel + 1, k =>
    let l := s.edS k
    let dx : ℝ := (s.pts (2 * k) : ℝ) - (s.pts (2 * l) : ℝ)
    let dy : ℝ := (s.pts (2 * k + 1) : ℝ) - (s.pts (2 * l + 1) : ℝ)
    Real.sqrt (dx * dx + dy * dy) + if l = 0 then 0 else perimLoop s fuel l

/-- `voronoicell_2d::perimeter` (cell_2d.cc:235-246).  Fuel `s.p` suffices on a
well-formed cell, whose successor walk from 0 returns to 0 in `p` steps. -/
noncomputable def perimeter (s : Cell) : ℝ :=
  if s.p = 0 then 0 else (1 / 2) * perimLoop s s.p 0

/-- The while loop of `voronoicell_2d::area` (cell_2d.cc:255-260), with
explicit fuel: shoelace fan anchored at vertex 0, `(dx1, dy1)` is the previous
fan edge and `k` the current walk position. -/
def areaLoop (s : Cell) (x y : ℚ) : ℕ → ℕ → ℚ → ℚ → ℚ
  | 0, _, _, _ => 0
  | fuel + 1, k, dx1, dy1 =>
    if k = 0 then 0
    else
      let dx2 := s.pts (2 * k) - x
      let dy2 := s.pts (2 * k + 1) - y
      dx1 * dy2 - dx2 * dy1 + areaLoop s x y fuel (s.edS k) dx2 dy2

/-- `voronoicell_2d::area` (cell_2d.cc:250-262). -/
def area (s : Cell) : ℚ :=
  if s.p = 0 then 0
  else
    let x := s.pts 0
    let y := s.pts 1
    let k := s.edS 0
    let dx1 := s.pts (2 * k) - x
    let dy1 := s.pts (2 * k + 1) - y
    (1 / 8) * areaLoop s x y s.p (s.edS k) dx1 dy1

/-- The while loop of `voronoicell_2d::centroid` (cell_2d.cc:274-282):
accumulates `(tarea, cx, cy)` over the triangle fan anchored at vertex 0. -/
def centroidLoop (s : Cell) (x y : ℚ) :
    ℕ → ℕ → ℚ → ℚ → ℚ × ℚ × ℚ → ℚ × ℚ × ℚ
  | 0, _, _, _, acc => acc
  | fuel + 1, k, dx1, dy1, acc =>
    if k = 0 then acc
    else
      let dx2 := s.pts (2 * k) - x
      let dy2 := s.pts (2 * k + 1) - y
      let a := dx1 * dy2 - dx2 * dy1
      centroidLoop s x y fuel (s.edS k) dx2 dy2
        (acc.1 + a, acc.2.1 + a * (dx1 + dx2), acc.2.2 + a * (dy1 + dy2))

/-- `voronoicell_2d::centroid` (cell_2d.cc:266-286).  The final statement
`tarea = third/tarea` of the source divides by the accumulated fan area with
no zero guard; in this exact model division by zero follows the rational
convention `q / 0 = 0` (IEEE doubles would produce an infinity there). -/
def centroid (s : Cell) : ℚ × ℚ :=
  if s.p = 0 then (0, 0)
  else
    let x := s.pts 0
    let y := s.pts 1
    let k := s.edS 0
    let dx1 := s.pts (2 * k) - x
    let dy1 := s.pts (2 * k + 1) - y
    let acc := centroidLoop s x y s.p (s.edS k) dx1 dy1 (0, 0, 0)
    let t := (1 / 3) / acc.1
    ((1 / 2) * (x + acc.2.1 * t), (1 / 2) * (y + acc.2.2 * t))

/-- Result of the phase-1 search of `plane` (cell_2d.cc:133-152) for a vertex
outside the cutting plane: `intact` means the walk met the opposite probe and
the routine returns `true` with the cell untouched; `found up u` is an outside
vertex; `stuck` is fuel exhaustion (the C loop would not terminate). -/
inductive Scan1 where
  | intact
  | found (up : ℕ) (u : ℚ)
  | stuck

/-- The `while(u2<tolerance)` walk of phase 1 (cell_2d.cc:138-142), which
follows successors from `up2` until it exits the plane or meets `up3`. -/
def scanA (s : Cell) (x y rsq : ℚ) (up3 : ℕ) : ℕ → ℕ → ℚ → Scan1
  | 0, up2, u2 => if u2 < tolerance then .stuck else .found up2 u2
  | fuel + 1, up2, u2 =>
    if u2 < tolerance then
      let up2a := s.edS up2
      let u2a := s.pos x y rsq up2a
      if up2a = up3 then .intact else scanA s x y rsq up3 fuel up2a u2a
    else .found up2 u2

/-- The `while(u3<tolerance)` walk of phase 1 (cell_2d.cc:145-149), following
predecessors from `up3` until it exits the plane or meets `up2`. -/
def scanB (s : Cell) (x y rsq : ℚ) (up2 : ℕ) : ℕ → ℕ → ℚ → Scan1
  | 0, up3, u3 => if u3 < tolerance then .stuck else .found up3 u3
  | fuel + 1, up3, u3 =>
    if u3 < tolerance then
      let up3a := s.edP up3
      let u3a := s.pos x y rsq up3a
      if up2 = up3a then .intact else scanB s x y rsq up2 fuel up3a u3a
    else .found up3 u3

/-- Phase 1 of `plane` (cell_2d.cc:133-152): start from vertex 0 and look for
a vertex with `pos ≥ tolerance`, walking uphill on the side of the larger
neighbour value. -/
def phase1 (s : Cell) (x y rsq : ℚ) (fuel : ℕ) : Scan1 :=
  let u := s.pos x y rsq 0
  if u < tolerance then
    let up2 := s.edS 0
    let u2 := s.pos x y rsq up2
    let up3 := s.edP 0
    let u3 := s.pos x y rsq up3
    if u2 > u3 then scanA s x y rsq up3 fuel up2 u2
    else scanB s x y rsq up2 fuel up3 u3
  else .found 0 u

/-- Result of the clockwise (successor) deletion sweep (cell_2d.cc:154-166):
`total` is the `up2==up` wrap-around, where `plane` returns `false`;
`stop stk l up2 u2` carries the delete stack, the last deleted distance `l`
and the first non-outside vertex reached. -/
inductive Scan2 where
  | total
  | stop (stk : List ℕ) (l : ℚ) (up2 : ℕ) (u2 : ℚ)
  | stuck

/-- The `while(u2>tolerance)` sweep of phase 2 (cell_2d.cc:159-166).  The
delete stack grows at the head (most recent first, matching pop order). -/
def sweepSucc (s : Cell) (x y rsq : ℚ) (up : ℕ) :
    ℕ → List ℕ → ℚ → ℕ → ℚ → Scan2
  | 0, stk, l, up2, u2 => if u2 > tolerance then .stuck else .stop stk l up2 u2
  | fuel + 1, stk, l, up2, u2 =>
    if u2 > tolerance then
      let up2a := s.edS up2
      let u2a := s.pos x y rsq up2a
      if up2a = up then .total
      else sweepSucc s x y rsq up fuel (up2 :: stk) u2 up2a u2a
    else .stop stk l up2 u2

/-- Result of the counter-clockwise (predecessor) deletion sweep
(cell_2d.cc:186-194); the `break` on `up3==up2` also produces `stop`. -/
inductive Scan4 where
  | stop (stk : List ℕ) (l : ℚ) (up3 : ℕ) (u3 : ℚ)
  | stuck

/-- The `while(u3>tolerance)` sweep of phase 4 (cell_2d.cc:187-194). -/
def sweepPred (s : Cell) (x y rsq : ℚ) (up2 : ℕ) :
    ℕ → List ℕ → ℚ → ℕ → ℚ → Scan4
  | 0, stk, l, up3, u3 => if u3 > tolerance then .stuck else .stop stk l up3 u3
  | fuel + 1, stk, l, up3, u3 =>
    if u3 > tolerance then
      let up3a := s.edP up3
      let u3a := s.pos x y rsq up3a
      if up3a = up2 then .stop (up3 :: stk) u3 up3a u3a
      else sweepPred s x y rsq up2 fuel (up3 :: stk) u3 up3a u3a
    else .stop stk l up3 u3

/-- The inner compaction loop `while(ed[2*--p]==-1);` (cell_2d.cc:219): from
vertex count `p`, skip tombstoned tail slots and return the highest slot `< p`
whose successor entry is not the tombstone.  (The source would underflow if no
such slot existed; verified uses always have a live slot.) -/
def findLive (ed : ℕ → ℤ) : ℕ → ℕ
  | 0 => 0
  | q + 1 => if ed (2 * q) = -1 then findLive ed q else q

/-- The outer compaction loop of phase 6 (cell_2d.cc:218-229): pop delete-stack
entries (most recent first); move the live tail vertex into each freed slot
below the live boundary, rewriting the neighbours' back-pointers. -/
def compactLoop : List ℕ → ℕ → (ℕ → ℚ) → (ℕ → ℤ) → ℕ × (ℕ → ℚ) × (ℕ → ℤ)
  | [], p, pts, ed => (p, pts, ed)
  | up :: rest, p, pts, ed =>
    let q := findLive ed p
    if up < q then
      let ed1 := Function.update ed (2 * (ed (2 * q)).toNat + 1) (up : ℤ)
      let ed2 := Function.update ed1 (2 * (ed1 (2 * q + 1)).toNat) (up : ℤ)
      let pts1 := Function.update pts (2 * up) (pts (2 * q))
      let pts2 := Function.update pts1 (2 * up + 1) (pts1 (2 * q + 1))
      let ed3 := Function.update ed2 (2 * up) (ed2 (2 * q))
      let ed4 := Function.update ed3 (2 * up + 1) (ed3 (2 * q + 1))
      compactLoop rest q pts2 ed4
    else compactLoop rest (q + 1) pts ed

/-- Phase 3 of `plane` (cell_2d.cc:171-182): if the first non-outside vertex
`up2` of the clockwise sweep lies on the plane, take it as cut endpoint `cp`;
otherwise append a new interpolated vertex.  Returns the updated cell and
`cp`; `l` is the `pos` of the last deleted vertex. -/
def phase3 (s : Cell) (l : ℚ) (up2 : ℕ) (u2 : ℚ) : Cell × ℕ :=
  if u2 > -tolerance then (s, up2)
  else
    let lp := s.edP up2
    let fac := 1 / (u2 - l)
    let pts1 := Function.update s.pts (2 * s.p)
      ((s.pts (2 * lp) * u2 - s.pts (2 * up2) * l) * fac)
    let pts2 := Function.update pts1 (2 * s.p + 1)
      ((s.pts (2 * lp + 1) * u2 - s.pts (2 * up2 + 1) * l) * fac)
    let ed1 := Function.update s.ed (2 * s.p) (up2 : ℤ)
    let ed2 := Function.update ed1 (2 * up2 + 1) (s.p : ℤ)
    (⟨s.p + 1, pts2, ed2⟩, s.p)

/-- Phase 5 of `plane` (cell_2d.cc:199-212) — wire or create the pred-side
boundary vertex — followed by phase 6 (cell_2d.cc:214-229) — tombstone the
delete stack and compact. -/
def planeFinish (s1 : Cell) (cp : ℕ) (stk2 : List ℕ) (l2 : ℚ) (up3 : ℕ)
    (u3 : ℚ) : Cell :=
  let s2 : Cell :=
    if u3 > tolerance then
      ⟨s1.p, s1.pts,
        Function.update (Function.update s1.ed (2 * cp + 1) (up3 : ℤ))
          (2 * up3) (cp : ℤ)⟩
    else
      let lp := s1.edS up3
      let fac := 1 / (u3 - l2)
      let pts1 := Function.update s1.pts (2 * s1.p)
        ((s1.pts (2 * lp) * u3 - s1.pts (2 * up3) * l2) * fac)
      let pts2 := Function.update pts1 (2 * s1.p + 1)
        ((s1.pts (2 * lp + 1) * u3 - s1.pts (2 * up3 + 1) * l2) * fac)
      let ed1 := Function.update s1.ed (2 * s1.p) (cp : ℤ)
      let ed2 := Function.update ed1 (2 * cp + 1) (s1.p : ℤ)
      let ed3 := Function.update ed2 (2 * s1.p + 1) (up3 : ℤ)
      let ed4 := Function.update ed3 (2 * up3) (s1.p : ℤ)
      ⟨s1.p + 1, pts2, ed4⟩
  let edm := stk2.foldl (fun e v => Function.update e (2 * v) (-1 : ℤ)) s2.ed
  let r := compactLoop stk2 s2.p s2.pts edm
  ⟨r.1, r.2.1, r.2.2⟩

/-- Phases 4-6 of `plane`, on the cell `s1` and cut endpoint `cp` produced by
phase 3: run the counter-clockwise sweep from `pred(up)` and finish. -/
def planeAfter3 (s1 : Cell) (cp up2 : ℕ) (x y rsq : ℚ) (fuel up : ℕ) (u : ℚ)
    (stk : List ℕ) : Option (Bool × Cell) :=
  match sweepPred s1 x y rsq up2 fuel stk u (s1.edP up) (s1.pos x y rsq (s1.edP up)) with
  | .stuck => none
  | .stop stk2 l2 up3 u3 => some (true, planeFinish s1 cp stk2 l2 up3 u3)

/-- Phases 3-6 of `plane`, entered after the clockwise sweep stopped at a
non-outside vertex `up2` with delete stack `stk`. -/
def planeRest (s : Cell) (x y rsq : ℚ) (fuel : ℕ) (up : ℕ) (u : ℚ)
    (stk : List ℕ) (l : ℚ) (up2 : ℕ) (u2 : ℚ) : Option (Bool × Cell) :=
  planeAfter3 (phase3 s l up2 u2).1 (phase3 s l up2 u2).2 up2 x y rsq fuel up u stk

/-- Dispatch on the result of the clockwise sweep (phase 2): a wrap-around is
the total clip, `false` with the cell untouched; otherwise phases 3-6 run. -/
def planeGo2 (s : Cell) (x y rsq : ℚ) (fuel : ℕ) (up : ℕ) (u : ℚ) :
    Scan2 → Option (Bool × Cell)
  | .stuck => none
  | .total => some (false, s)
  | .stop stk l up2 u2 => planeRest s x y rsq fuel up u stk l up2 u2

/-- Dispatch on the result of the phase-1 search: no outside vertex means the
plane does not cut and the cell is returned unchanged. -/
def planeGo1 (s : Cell) (x y rsq : ℚ) (fuel : ℕ) : Scan1 → Option (Bool × Cell)
  | .stuck => none
  | .intact => some (true, s)
  | .found up u =>
    planeGo2 s x y rsq fuel up u
      (sweepSucc s x y rsq up fuel [up] u (s.edS up) (s.pos x y rsq (s.edS up)))

/-- `voronoicell_2d::plane` (cell_2d.cc:126-231), assembled from the phases.
Returns `none` on fuel exhaustion; otherwise `some (survived, cell)`.
`add_memory_vertices`/`add_memory_ds` are content-preserving and not modelled;
the delete stack is the local list threaded through the sweeps. -/
def plane (fuel : ℕ) (s : Cell) (x y rsq : ℚ) : Option (Bool × Cell) :=
  planeGo1 s x y rsq fuel (phase1 s x y rsq fuel)

/-- The format-scanning loop of `voronoicell_2d::output_custom`
(cell_2d.cc:301-342), producing the characters written before the final
newline.  Number rendering by `fprintf`/`putc` is C-library code outside this
repository, abstracted by the parameters `d` (`"%d"`), `g` (`"%g"` on exact
quantities) and `gr` (`"%g"` on the real-valued perimeter).  A `'%'` followed
by the end of the string hits `case 0`, which backs the scan pointer up so the
outer loop re-reads the terminator: nothing is emitted for it. -/
noncomputable def customBody (s : Cell) (d : ℤ → List Char) (g : ℚ → List Char)
    (gr : ℝ → List Char) (i : ℤ) (x y r : ℚ) : List Char → List Char
  | [] => []
  | [c] => if c = '%' then [] else [c]
  | c :: c2 :: rest =>
    if c = '%' then
      (if c2 = 'i' then d i
       else if c2 = 'x' then g x
       else if c2 = 'y' then g y
       else if c2 = 'q' then g x ++ [' '] ++ g y
       else if c2 = 'r' then g r
       else if c2 = 'w' then d (s.p : ℤ)
       else if c2 = 'm' then g ((1 / 4) * max_radius_squared s)
       else if c2 = 'p' then gr (perimeter s)
       else if c2 = 'a' then g (area s)
       else if c2 = 'c' then g (centroid s).1 ++ [' '] ++ g (centroid s).2
       else if c2 = 'C' then g (x + (centroid s).1) ++ [' '] ++ g (y + (centroid s).2)
       else ['%', c2]) ++ customBody s d g gr i x y r rest
    else c :: customBody s d g gr i x y r (c2 :: rest)

/-- `voronoicell_2d::output_custom` (cell_2d.cc:299-344): the scanned body
followed by the unconditional `fputs("\n",fp)`. -/
noncomputable def output_custom (s : Cell) (d : ℤ → List Char) (g : ℚ → List Char)
    (gr : ℝ → List Char) (i : ℤ) (x y r : ℚ) (format : List Char) : List Char :=
  customBody s d g gr i x y r format ++ ['\n']

/-- Scenario 1 of the spec: `init(-1, 1, -1, 1)` on a fresh cell. -/
def squareCell : Cell := init emptyCell (-1) 1 (-1) 1

/-- The accumulated fan area `tarea` of the centroid loop (cell_2d.cc:277),
twice... exactly the value the source divides by in `tarea=third/tarea`. -/
def fanArea (s : Cell) : ℚ :=
  if s.p = 0 then 0
  else
    let x := s.pts 0
    let y := s.pts 1
    let k := s.edS 0
    let dx1 := s.pts (2 * k) - x
    let dy1 := s.pts (2 * k + 1) - y
    (centroidLoop s x y s.p (s.edS k) dx1 dy1 (0, 0, 0)).1

/-- `k`-th successor iterate of vertex 0: the boundary walk `0, succ(0),
succ(succ(0)), …`. -/
def Iter (s : Cell) : ℕ → ℕ
  | 0 => 0
  | k + 1 => s.edS (Iter s k)

/-- The adjacency invariants of the spec (§3 invariants 1-3 and 6): a nonempty
cell whose `ed` entries are in `[0, p)` as integers, with `succ` and `pred`
mutually inverse, and whose successor orbit from vertex 0 covers every index
and returns to 0 after `p` steps (one single cycle). -/
def Wf (s : Cell) : Prop :=
  0 < s.p ∧
  (∀ v < s.p, 0 ≤ s.ed (2 * v) ∧ s.ed (2 * v) < (s.p : ℤ) ∧
    0 ≤ s.ed (2 * v + 1) ∧ s.ed (2 * v + 1) < (s.p : ℤ)) ∧
  (∀ v < s.p, s.edS (s.edP v) = v ∧ s.edP (s.edS v) = v) ∧
  (∀ v < s.p, ∃ k < s.p, Iter s k = v) ∧
  Iter s s.p = 0

/-- A degenerate state with `p = 0` whose arena still holds a stale first
vertex `(2, 0)`: used against the claim that `max_radius_squared` returns 0 on
an empty cell. -/
def staleCell : Cell := ⟨0, fun k => if k = 0 then 2 else 0, fun _ => 0⟩

/-- A well-formed 3-gon whose vertices are collinear on the x-axis (stored
scaled: `(2,0), (4,0), (6,0)`), so the centroid fan area vanishes. -/
def c3cell : Cell :=
  ⟨3,
    fun k => if k = 0 then 2 else if k = 2 then 4 else if k = 4 then 6 else 0,
    fun k =>
      if k = 0 then 1 else if k = 1 then 2
      else if k = 2 then 2 else if k = 3 then 0
      else if k = 4 then 0 else if k = 5 then 1 else 0⟩

/-- `k`-th successor iterate starting from an arbitrary vertex `v`. -/
def IterF (s : Cell) (v : ℕ) : ℕ → ℕ
  | 0 => v
  | k + 1 => s.edS (IterF s v k)

/-- The delete stack built by the clockwise sweep after `n` pushes from `v`:
most recent first, i.e. `[σⁿ⁻¹(v), …, σ(v), v]`. -/
def sweepList (s : Cell) (v : ℕ) : ℕ → List ℕ
  | 0 => []
  | n + 1 => IterF s v n :: sweepList s v n

/-- The delete-stack segment pushed by the counter-clockwise sweep: iterate
exponents `start, start+1, …, start+len-1` relative to `v` (most recent
first). -/
def predList (s : Cell) (v start len : ℕ) : List ℕ :=
  (List.range len).map (fun i => IterF s v (start + i))

/-- Consistent doubly-linked adjacency on a set `L` of live slots: entries of
live slots are nonnegative, point into `L`, are never self-loops, and the two
directions are mutually inverse. -/
def LiveAdj (ed : ℕ → ℤ) (L : Finset ℕ) : Prop :=
  ∀ v ∈ L, 0 ≤ ed (2 * v) ∧ 0 ≤ ed (2 * v + 1) ∧
    (ed (2 * v)).toNat ∈ L ∧ (ed (2 * v + 1)).toNat ∈ L ∧
    (ed (2 * v)).toNat ≠ v ∧ (ed (2 * v + 1)).toNat ≠ v ∧
    ed (2 * (ed (2 * v)).toNat + 1) = (v : ℤ) ∧
    ed (2 * (ed (2 * v + 1)).toNat) = (v : ℤ)

/-- The claim-C6 postcondition in integer form: every adjacency entry of a
live slot lies in `[0, p)` (so no tombstone `-1` and no stale index survives)
and the two directions are mutually inverse. -/
def AdjOK (s : Cell) : Prop :=
  ∀ v < s.p,
    0 ≤ s.ed (2 * v) ∧ s.ed (2 * v) < (s.p : ℤ) ∧
    0 ≤ s.ed (2 * v + 1) ∧ s.ed (2 * v + 1) < (s.p : ℤ) ∧
    s.ed (2 * (s.ed (2 * v)).toNat + 1) = (v : ℤ) ∧
    s.ed (2 * (s.ed (2 * v + 1)).toNat) = (v : ℤ)

instance decidableWf (s : Cell) : Decidable (Wf s) := by
  unfold Wf
  infer_instance

theorem tolerance_pos : 0 < tolerance := by norm_num [tolerance]

/-- C7: `init(xmin, xmax, ymin, ymax)` sets `p = 4`, stores the four vertices
`(xmin,ymin)`, `(xmax,ymin)`, `(xmax,ymax)`, `(xmin,ymax)` in that order with
every coordinate multiplied by two, and sets the adjacency arena to the
4-cycle `succ = (1, 2, 3, 0)`, `pred = (3, 0, 1, 2)`. -/
theorem init_seeds_rectangle (s : Cell) (xmin xmax ymin ymax : ℚ) :
    (s.init xmin xmax ymin ymax).p = 4 ∧
    (s.init xmin xmax ymin ymax).pts 0 = 2 * xmin ∧
    (s.init xmin xmax ymin ymax).pts 1 = 2 * ymin ∧
    (s.init xmin xmax ymin ymax).pts 2 = 2 * xmax ∧
    (s.init xmin xmax ymin ymax).pts 3 = 2 * ymin ∧
    (s.init xmin xmax ymin ymax).pts 4 = 2 * xmax ∧
    (s.init xmin xmax ymin ymax).pts 5 = 2 * ymax ∧
    (s.init xmin xmax ymin ymax).pts 6 = 2 * xmin ∧
    (s.init xmin xmax ymin ymax).pts 7 = 2 * ymax ∧
    (s.init xmin xmax ymin ymax).edS 0 = 1 ∧
    (s.init xmin xmax ymin ymax).edS 1 = 2 ∧
    (s.init xmin xmax ymin ymax).edS 2 = 3 ∧
    (s.init xmin xmax ymin ymax).edS 3 = 0 ∧
    (s.init xmin xmax ymin ymax).edP 0 = 3 ∧
    (s.init xmin xmax ymin ymax).edP 1 = 0 ∧
    (s.init xmin xmax ymin ymax).edP 2 = 1 ∧
    (s.init xmin xmax ymin ymax).edP 3 = 2 := by
  norm_num [init, edS, edP, Function.update]
  all_goals decide

set_option maxRecDepth 200000 in
/-- C2 counterexample: on an empty cell (`p = 0`) whose arena holds a stale
first vertex, `max_radius_squared` does not return 0: the source reads the
first vertex slot unconditionally (cell_2d.cc:111 has no `p == 0` guard). -/
theorem max_radius_squared_empty_not_zero :
    staleCell.p = 0 ∧ max_radius_squared staleCell = 4 ∧
    max_radius_squared staleCell ≠ 0 := by
  with_unfolding_all decide

/-- C2 (amended): on an empty cell, `perimeter`, `area` and `centroid` return
their zero defaults, while `max_radius_squared` returns the squared radius of
the stale slot-0 coordinates (which is 0 only when those happen to be 0). -/
theorem empty_cell_queries (s : Cell) (h : s.p = 0) :
    perimeter s = 0 ∧ area s = 0 ∧ centroid s = (0, 0) ∧
    max_radius_squared s = s.pts 0 * s.pts 0 + s.pts 1 * s.pts 1 := by
  refine ⟨?_, ?_, ?_, ?_⟩
  · simp [perimeter, h]
  · simp [area, h]
  · simp [centroid, h]
  · simp [max_radius_squared, h]

/-- C2 witness: `empty_cell_queries` evaluated on the fresh empty cell. -/
theorem empty_cell_queries_witness :
    perimeter emptyCell = 0 ∧ area emptyCell = 0 ∧ centroid emptyCell = (0, 0) ∧
    max_radius_squared emptyCell =
      emptyCell.pts 0 * emptyCell.pts 0 + emptyCell.pts 1 * emptyCell.pts 1 :=
  empty_cell_queries emptyCell rfl

set_option maxRecDepth 200000 in
/-- C3 counterexample: a nonempty cell of three collinear vertices has zero fan
area, yet `centroid` does not return `(0, 0)`: the source divides by the zero
total area without a guard (cell_2d.cc:283) and the anchor term survives. -/
theorem centroid_zero_fan_area_not_origin :
    0 < c3cell.p ∧ fanArea c3cell = 0 ∧ centroid c3cell ≠ (0, 0) ∧
    centroid c3cell = (1, 0) := by
  with_unfolding_all decide

/-- C3 (amended): on a nonempty cell whose accumulated fan area is zero,
`centroid` returns half the stored (twice-scaled) slot-0 coordinates — the
anchor vertex in geometric coordinates — and not `(0, 0)` in general.  The
division `third/tarea` is exercised with `tarea = 0` (rational convention
`q / 0 = 0`; IEEE doubles would make it an infinity). -/
theorem centroid_zero_fan_area_eq_anchor (s : Cell) (h0 : 0 < s.p)
    (hf : fanArea s = 0) :
    centroid s = ((1 / 2) * s.pts 0, (1 / 2) * s.pts 1) := by
  have hne : ¬s.p = 0 := Nat.pos_iff_ne_zero.mp h0
  simp only [fanArea, if_neg hne] at hf
  simp only [centroid, if_neg hne]
  rw [hf]
  norm_num

set_option maxRecDepth 200000 in
/-- C3 witness: `centroid_zero_fan_area_eq_anchor` evaluated on the collinear
3-gon. -/
theorem centroid_zero_fan_area_eq_anchor_witness :
    centroid c3cell = ((1 / 2) * c3cell.pts 0, (1 / 2) * c3cell.pts 1) :=
  centroid_zero_fan_area_eq_anchor c3cell (by norm_num [c3cell])
    (by with_unfolding_all decide)

set_option maxRecDepth 200000 in
/-- C4 counterexample: a format string ending in `%` does not emit a literal
`%` for the trailing character: `output_custom` on `"a%"` emits only `"a\n"`.
The `case 0` branch (cell_2d.cc:334) backs up one character and lets the outer
loop re-read the terminator, discarding the `%` silently. -/
theorem output_custom_trailing_percent_dropped :
    output_custom emptyCell (fun _ => []) (fun _ => []) (fun _ => []) 0 0 0 0
        ['a', '%'] = ['a', '\n'] ∧
    '%' ∉ output_custom emptyCell (fun _ => []) (fun _ => []) (fun _ => []) 0 0 0 0
        ['a', '%'] := by
  with_unfolding_all decide

/-- C4 (amended): a trailing `%` is discarded silently, while all other
literal characters pass through unchanged: on a `%`-free format string
followed by a final `%`, the output is exactly the format prefix plus the
terminating newline. -/
theorem output_custom_trailing_percent_amended (s : Cell) (d : ℤ → List Char)
    (g : ℚ → List Char) (gr : ℝ → List Char) (i : ℤ) (x y r : ℚ)
    (fmt : List Char) (hf : '%' ∉ fmt) :
    output_custom s d g gr i x y r (fmt ++ ['%']) = fmt ++ ['\n'] := by
  unfold output_custom
  suffices h : customBody s d g gr i x y r (fmt ++ ['%']) = fmt by rw [h]
  induction fmt with
  | nil => simp [customBody]
  | cons c cs ih =>
    have hc : c ≠ '%' := fun hcc => hf (hcc ▸ List.mem_cons_self c cs)
    have hcs : '%' ∉ cs := fun hm => hf (List.mem_cons_of_mem c hm)
    cases cs with
    | nil => simp [customBody, hc]
    | cons c2 cs2 => simpa [customBody, hc] using ih hcs

/-- C4 witness: `output_custom_trailing_percent_amended` on the format
`"ab%"`. -/
theorem output_custom_trailing_percent_amended_witness :
    output_custom emptyCell (fun _ => []) (fun _ => []) (fun _ => []) 0 0 0 0
      (['a', 'b'] ++ ['%']) = ['a', 'b'] ++ ['\n'] :=
  output_custom_trailing_percent_amended emptyCell (fun _ => []) (fun _ => [])
    (fun _ => []) 0 0 0 0 ['a', 'b'] (by decide)

set_option maxRecDepth 200000 in
/-- C10 counterexample: a format string containing a literal newline makes
`output_custom` emit more than one line: the single terminating newline is
appended, but literal characters (including `'\n'`) pass through, so the call
does not always emit exactly one line. -/
theorem output_custom_newline_format_two_lines :
    (output_custom emptyCell (fun _ => []) (fun _ => []) (fun _ => []) 0 0 0 0
        ['\n']).count '\n' = 2 := by
  with_unfolding_all decide

/-- C10 (amended): `output_custom` always appends exactly one terminating
newline after processing the whole format string; whenever the processed body
contains no newline, the emitted text therefore contains exactly one newline
(one line per call). -/
theorem output_custom_single_newline (s : Cell) (d : ℤ → List Char)
    (g : ℚ → List Char) (gr : ℝ → List Char) (i : ℤ) (x y r : ℚ)
    (fmt : List Char) (hf : '\n' ∉ customBody s d g gr i x y r fmt) :
    output_custom s d g gr i x y r fmt =
      customBody s d g gr i x y r fmt ++ ['\n'] ∧
    (output_custom s d g gr i x y r fmt).count '\n' = 1 := by
  refine ⟨rfl, ?_⟩
  unfold output_custom
  rw [List.count_append, List.count_eq_zero.mpr hf]
  simp

set_option maxRecDepth 200000 in
/-- C10 witness: `output_custom_single_newline` on the format `"a"`. -/
theorem output_custom_single_newline_witness :
    output_custom emptyCell (fun _ => []) (fun _ => []) (fun _ => []) 0 0 0 0
        ['a'] =
      customBody emptyCell (fun _ => []) (fun _ => []) (fun _ => []) 0 0 0 0
        ['a'] ++ ['\n'] ∧
    (output_custom emptyCell (fun _ => []) (fun _ => []) (fun _ => []) 0 0 0 0
        ['a']).count '\n' = 1 :=
  output_custom_single_newline emptyCell (fun _ => []) (fun _ => [])
    (fun _ => []) 0 0 0 0 ['a'] (by with_unfolding_all decide)

/-- Phases 3-6 never produce the `false` return: only the total-clip path of
the clockwise sweep does. -/
theorem planeRest_ne_false (s : Cell) (x y rsq : ℚ) (fuel : ℕ) (up : ℕ)
    (u : ℚ) (stk : List ℕ) (l : ℚ) (up2 : ℕ) (u2 : ℚ) (s2 : Cell) :
    planeRest s x y rsq fuel up u stk l up2 u2 ≠ some (false, s2) := by
  intro h
  unfold planeRest planeAfter3 at h
  split at h <;> simp at h

/-- C9: whenever `plane` returns `false`, the polygon state — vertex count,
coordinate arena and adjacency arena — is exactly the input state: the
total-clip path (cell_2d.cc:165) returns before any mutation of the cell
(only the scratch delete stack is touched). -/
theorem plane_false_frame (fuel : ℕ) (s : Cell) (x y rsq : ℚ) (s2 : Cell)
    (h : plane fuel s x y rsq = some (false, s2)) : s2 = s := by
  unfold plane at h
  cases hph : phase1 s x y rsq fuel <;> rw [hph] at h <;>
    simp only [planeGo1] at h
  · simp at h
  · rename_i up u
    cases hsw : sweepSucc s x y rsq up fuel [up] u (s.edS up)
        (s.pos x y rsq (s.edS up)) <;>
      rw [hsw] at h <;> simp only [planeGo2] at h
    · simp only [Option.some.injEq, Prod.mk.injEq] at h
      exact h.2.symm
    · exact absurd h (planeRest_ne_false _ _ _ _ _ _ _ _ _ _ _ _)
    · exact Option.noConfusion h
  · exact Option.noConfusion h

set_option maxRecDepth 200000 in
/-- C9 witness: `plane_false_frame` on the seed square and the plane
`(1, 0, -5)`, which clips the whole cell. -/
theorem plane_false_frame_witness : squareCell = squareCell :=
  plane_false_frame 8 squareCell 1 0 (-5) squareCell
    (by with_unfolding_all rfl)

set_option maxRecDepth 200000 in
/-- C1 counterexample: a total clip on the seed square — every vertex has
`pos > tolerance` — makes `plane` return `false`, but the kernel does *not*
set `p` to 0: the returned state still has `p = 4` (cell_2d.cc:165 returns
with no mutation). -/
theorem plane_total_clip_p_not_zeroed :
    (∀ v < squareCell.p, tolerance < squareCell.pos 1 0 (-5) v) ∧
    plane 8 squareCell 1 0 (-5) = some (false, squareCell) ∧
    squareCell.p = 4 := by
  refine ⟨by with_unfolding_all decide, by with_unfolding_all rfl,
    by with_unfolding_all decide⟩

set_option maxRecDepth 200000 in
/-- C5 counterexample: with the claim's non-strict bound `pos(v) ≤ tolerance`,
a vertex lying exactly at `pos = tolerance` is treated as outside by the
strict `u < tolerance` test (cell_2d.cc:134), so `plane` still cuts: on the
seed square and plane `(1, 0, 2 - tolerance)` every vertex satisfies
`pos ≤ tolerance`, yet the call returns `true` with a modified coordinate
arena. -/
theorem plane_noncut_boundary_mutates :
    (∀ v < squareCell.p, squareCell.pos 1 0 (2 - tolerance) v ≤ tolerance) ∧
    ((plane 8 squareCell 1 0 (2 - tolerance)).getD (false, emptyCell)).1 = true ∧
    ((plane 8 squareCell 1 0 (2 - tolerance)).getD (false, emptyCell)).2.pts 2 ≠
      squareCell.pts 2 := by
  refine ⟨by with_unfolding_all decide, by with_unfolding_all decide,
    by with_unfolding_all decide⟩

/-- One unfolding step of the perimeter walk. -/
theorem perimLoop_succ (s : Cell) (f k : ℕ) :
    perimLoop s (f + 1) k =
      Real.sqrt
        (((s.pts (2 * k) : ℝ) - (s.pts (2 * s.edS k) : ℝ)) *
            ((s.pts (2 * k) : ℝ) - (s.pts (2 * s.edS k) : ℝ)) +
          ((s.pts (2 * k + 1) : ℝ) - (s.pts (2 * s.edS k + 1) : ℝ)) *
            ((s.pts (2 * k + 1) : ℝ) - (s.pts (2 * s.edS k + 1) : ℝ))) +
      if s.edS k = 0 then 0 else perimLoop s f (s.edS k) := rfl

set_option maxRecDepth 200000 in
/-- C8: scenario 1 — after `init(-1, 1, -1, 1)` on a fresh cell: `p = 4`,
`area() = 4`, `perimeter() = 8`, `centroid() = (0, 0)` and
`max_radius_squared() = 8` (stored scaled coordinates, so
`max_radius_squared()/4 = 2` geometrically). -/
theorem squareCell_queries :
    squareCell.p = 4 ∧ area squareCell = 4 ∧ perimeter squareCell = 8 ∧
    centroid squareCell = (0, 0) ∧ max_radius_squared squareCell = 8 := by
  refine ⟨by with_unfolding_all decide, by with_unfolding_all decide, ?_,
    by with_unfolding_all decide, by with_unfolding_all decide⟩
  have e0 : squareCell.edS 0 = 1 := by with_unfolding_all decide
  have e1 : squareCell.edS 1 = 2 := by with_unfolding_all decide
  have e2 : squareCell.edS 2 = 3 := by with_unfolding_all decide
  have e3 : squareCell.edS 3 = 0 := by with_unfolding_all decide
  have p0 : squareCell.pts 0 = -2 := by with_unfolding_all decide
  have p1 : squareCell.pts 1 = -2 := by with_unfolding_all decide
  have p2 : squareCell.pts 2 = 2 := by with_unfolding_all decide
  have p3 : squareCell.pts 3 = -2 := by with_unfolding_all decide
  have p4 : squareCell.pts 4 = 2 := by with_unfolding_all decide
  have p5 : squareCell.pts 5 = 2 := by with_unfolding_all decide
  have p6 : squareCell.pts 6 = -2 := by with_unfolding_all decide
  have p7 : squareCell.pts 7 = 2 := by with_unfolding_all decide
  have hsq : Real.sqrt 16 = 4 := by
    rw [show (16 : ℝ) = 4 ^ 2 by norm_num]
    exact Real.sqrt_sq (by norm_num)
  have L3 : perimLoop squareCell 1 3 = Real.sqrt 16 := by
    rw [show perimLoop squareCell 1 3 = perimLoop squareCell (0 + 1) 3 from rfl,
      perimLoop_succ, e3, if_pos rfl]
    rw [show (2 * (3 : ℕ)) = 7 - 1 + 0 from rfl]
    norm_num [p0, p1, p6, p7]
  have L2 : perimLoop squareCell 2 2 = Real.sqrt 16 + Real.sqrt 16 := by
    rw [show perimLoop squareCell 2 2 = perimLoop squareCell (1 + 1) 2 from rfl,
      perimLoop_succ, e2, if_neg (by norm_num), L3]
    norm_num [p4, p5, p6, p7]
  have L1 : perimLoop squareCell 3 1 =
      Real.sqrt 16 + (Real.sqrt 16 + Real.sqrt 16) := by
    rw [show perimLoop squareCell 3 1 = perimLoop squareCell (2 + 1) 1 from rfl,
      perimLoop_succ, e1, if_neg (by norm_num), L2]
    norm_num [p2, p3, p4, p5]
  have L0 : perimLoop squareCell 4 0 =
      Real.sqrt 16 + (Real.sqrt 16 + (Real.sqrt 16 + Real.sqrt 16)) := by
    rw [show perimLoop squareCell 4 0 = perimLoop squareCell (3 + 1) 0 from rfl,
      perimLoop_succ, e0, if_neg (by norm_num), L1]
    norm_num [p0, p1, p2, p3]
  have hp4 : squareCell.p = 4 := by with_unfolding_all decide
  unfold perimeter
  rw [hp4]
  norm_num [L0, hsq]

/-- Successor entries of a well-formed cell stay in range. -/
theorem edS_lt (s : Cell) (hwf : Wf s) {v : ℕ} (hv : v < s.p) :
    s.edS v < s.p := by
  have h := hwf.2.1 v hv
  unfold edS
  omega

/-- Predecessor entries of a well-formed cell stay in range. -/
theorem edP_lt (s : Cell) (hwf : Wf s) {v : ℕ} (hv : v < s.p) :
    s.edP v < s.p := by
  have h := hwf.2.1 v hv
  unfold edP
  omega

/-- `succ ∘ pred = id` on live vertices. -/
theorem edS_edP (s : Cell) (hwf : Wf s) {v : ℕ} (hv : v < s.p) :
    s.edS (s.edP v) = v := (hwf.2.2.1 v hv).1

/-- `pred ∘ succ = id` on live vertices. -/
theorem edP_edS (s : Cell) (hwf : Wf s) {v : ℕ} (hv : v < s.p) :
    s.edP (s.edS v) = v := (hwf.2.2.1 v hv).2

/-- All successor iterates of vertex 0 stay in range. -/
theorem Iter_lt (s : Cell) (hwf : Wf s) : ∀ k, Iter s k < s.p := by
  intro k
  induction k with
  | zero => exact hwf.1
  | succ n ih => exact edS_lt s hwf ih

/-- Cancel one `succ` from an equality of iterates. -/
theorem Iter_strip (s : Cell) (hwf : Wf s) {a b : ℕ}
    (h : Iter s (a + 1) = Iter s (b + 1)) : Iter s a = Iter s b := by
  have ha := Iter_lt s hwf a
  have hb := Iter_lt s hwf b
  have h2 : s.edP (s.edS (Iter s a)) = s.edP (s.edS (Iter s b)) := by
    exact congrArg s.edP h
  rwa [edP_edS s hwf ha, edP_edS s hwf hb] at h2

/-- Cancel a prefix of `succ`s from an equality of iterates. -/
theorem Iter_strip_many (s : Cell) (hwf : Wf s) :
    ∀ a d, Iter s a = Iter s (a + d) → Iter s 0 = Iter s d := by
  intro a
  induction a with
  | zero => intro d h; simpa using h
  | succ n ih =>
    intro d h
    exact ih d (Iter_strip s hwf (by rwa [show n + 1 + d = (n + d) + 1 by omega] at h))

/-- A return to 0 after `d` steps makes the orbit `d`-periodic. -/
theorem Iter_add_period (s : Cell) (d : ℕ) (hd : Iter s d = 0) :
    ∀ k, Iter s (k + d) = Iter s k := by
  intro k
  induction k with
  | zero => simpa [Iter] using hd
  | succ n ih =>
    have : n + 1 + d = (n + d) + 1 := by omega
    rw [this]
    show s.edS (Iter s (n + d)) = s.edS (Iter s n)
    rw [ih]

/-- With a period `d`, every iterate equals an iterate of index below `d`. -/
theorem Iter_image_all (s : Cell) (d : ℕ) (hd0 : 0 < d) (hd : Iter s d = 0) :
    ∀ k, ∃ j < d, Iter s k = Iter s j := by
  intro k
  induction k using Nat.strong_induction_on with
  | _ k ih =>
    by_cases hk : k < d
    · exact ⟨k, hk, rfl⟩
    · obtain ⟨j, hj, hjk⟩ := ih (k - d) (by omega)
      refine ⟨j, hj, ?_⟩
      have h2 : Iter s k = Iter s (k - d) := by
        conv_lhs => rw [show k = (k - d) + d by omega]
        exact Iter_add_period s d hd (k - d)
      rw [h2, hjk]

/-- The orbit of 0 cannot return to 0 in fewer than `p` steps: that would
contradict the single-cycle coverage of `[0, p)`. -/
theorem Iter_no_small_period (s : Cell) (hwf : Wf s) {d : ℕ} (hd0 : 0 < d)
    (hdp : d < s.p) (hd : Iter s d = 0) : False := by
  have hsurj := hwf.2.2.2.1
  have hsub : Finset.range s.p ⊆ (Finset.range d).image (Iter s) := by
    intro v hv
    obtain ⟨k, hk, hkv⟩ := hsurj v (Finset.mem_range.mp hv)
    obtain ⟨j, hj, hjk⟩ := Iter_image_all s d hd0 hd k
    exact Finset.mem_image.mpr ⟨j, Finset.mem_range.mpr hj, by rw [← hjk, hkv]⟩
  have hcard := Finset.card_le_card hsub
  have h1 : ((Finset.range d).image (Iter s)).card ≤ d := by
    calc ((Finset.range d).image (Iter s)).card ≤ (Finset.range d).card :=
          Finset.card_image_le
    _ = d := Finset.card_range d
  rw [Finset.card_range] at hcard
  omega

/-- Iterates with indices below `p` are pairwise distinct. -/
theorem Iter_inj (s : Cell) (hwf : Wf s) :
    ∀ {a b}, a < s.p → b < s.p → Iter s a = Iter s b → a = b := by
  suffices h : ∀ a b, a ≤ b → b < s.p → Iter s a = Iter s b → a = b by
    intro a b ha hb hab
    rcases le_total a b with h1 | h1
    · exact h a b h1 hb hab
    · exact (h b a h1 ha hab.symm).symm
  intro a b hab hb heq
  by_contra hne
  have hd0 : 0 < b - a := by omega
  have h1 : Iter s a = Iter s (a + (b - a)) := by
    rw [show a + (b - a) = b by omega]
    exact heq
  have h0 : Iter s 0 = Iter s (b - a) := Iter_strip_many s hwf a (b - a) h1
  exact Iter_no_small_period s hwf hd0 (by omega) (by rw [← h0]; rfl)

/-- The predecessor of vertex 0 is the last iterate before the cycle closes. -/
theorem edP_zero (s : Cell) (hwf : Wf s) : s.edP 0 = Iter s (s.p - 1) := by
  have h1 : s.edS (Iter s (s.p - 1)) = 0 := by
    have h2 : (s.p - 1) + 1 = s.p := by
      have := hwf.1
      omega
    show Iter s ((s.p - 1) + 1) = 0
    rw [h2]
    exact hwf.2.2.2.2
  rw [← h1, edP_edS s hwf (Iter_lt s hwf _)]

/-- One predecessor step moves an iterate index down by one. -/
theorem edP_Iter (s : Cell) (hwf : Wf s) (m : ℕ) :
    s.edP (Iter s (m + 1)) = Iter s m := by
  show s.edP (s.edS (Iter s m)) = Iter s m
  exact edP_edS s hwf (Iter_lt s hwf m)

/-- If every vertex is strictly outside the plane, the clockwise sweep from
vertex 0 wraps around and reports the total clip. -/
theorem sweepSucc_all_outside (s : Cell) (x y rsq : ℚ) (hwf : Wf s)
    (hall : ∀ v < s.p, tolerance < s.pos x y rsq v) :
    ∀ fuel i stk l, 1 ≤ i → i < s.p → s.p - i ≤ fuel →
      sweepSucc s x y rsq 0 fuel stk l (Iter s i) (s.pos x y rsq (Iter s i)) =
        Scan2.total := by
  intro fuel
  induction fuel with
  | zero => intro i stk l h1 h2 h3; omega
  | succ f ih =>
    intro i stk l h1 h2 h3
    have hout : tolerance < s.pos x y rsq (Iter s i) := hall _ (Iter_lt s hwf i)
    simp only [sweepSucc]
    rw [if_pos hout]
    by_cases hip : i + 1 = s.p
    · have h0 : s.edS (Iter s i) = 0 := by
        show Iter s (i + 1) = 0
        rw [hip]
        exact hwf.2.2.2.2
      rw [h0]
      simp
    · have hne : s.edS (Iter s i) ≠ 0 := by
        show Iter s (i + 1) ≠ 0
        intro h0
        have h9 := Iter_inj s hwf (a := i + 1) (b := 0) (by omega) hwf.1
          (by simpa [Iter] using h0)
        omega
      rw [if_neg hne]
      exact ih (i + 1) (Iter s i :: stk) (s.pos x y rsq (Iter s i))
        (by omega) (by omega) (by omega)

/-- C1 (amended): a plane with every live vertex strictly outside
(`pos > tolerance`) makes `plane` return `false` with the cell — in
particular `p` — exactly unchanged; the kernel does not set `p` to 0. -/
theorem plane_total_clip (s : Cell) (x y rsq : ℚ) (fuel : ℕ) (hwf : Wf s)
    (hall : ∀ v < s.p, tolerance < s.pos x y rsq v) (hfuel : s.p ≤ fuel) :
    plane fuel s x y rsq = some (false, s) := by
  have hph : phase1 s x y rsq fuel = Scan1.found 0 (s.pos x y rsq 0) := by
    unfold phase1
    rw [if_neg (not_lt.mpr (le_of_lt (hall 0 hwf.1)))]
  have hsw : sweepSucc s x y rsq 0 fuel [0] (s.pos x y rsq 0) (s.edS 0)
      (s.pos x y rsq (s.edS 0)) = Scan2.total := by
    rcases Nat.lt_or_ge 1 s.p with hp | hp
    · exact sweepSucc_all_outside s x y rsq hwf hall fuel 1 [0]
        (s.pos x y rsq 0) le_rfl hp (by omega)
    · have hp1 : s.p = 1 := by have := hwf.1; omega
      have he0 : s.edS 0 = 0 := by
        have h := hwf.2.2.2.2
        rwa [hp1] at h
      obtain ⟨f, rfl⟩ : ∃ f, fuel = f + 1 := ⟨fuel - 1, by omega⟩
      simp only [sweepSucc]
      rw [he0, if_pos (hall 0 hwf.1)]
      simp [he0]
  unfold plane
  rw [hph]
  simp only [planeGo1]
  rw [hsw]
  simp only [planeGo2]

/-- C1 witness: `plane_total_clip` on the seed square and the plane
`(1, 0, -5)`. -/
theorem plane_total_clip_witness :
    plane 8 squareCell 1 0 (-5) = some (false, squareCell) :=
  plane_total_clip squareCell 1 0 (-5) 8 (by with_unfolding_all decide)
    (by with_unfolding_all decide) (by norm_num [squareCell, init, emptyCell])

/-- If every vertex is strictly inside the plane, the phase-1 successor walk
from `Iter i` reaches `pred(0) = Iter (p-1)` and reports the cell intact. -/
theorem scanA_intact (s : Cell) (x y rsq : ℚ) (hwf : Wf s)
    (hall : ∀ v < s.p, s.pos x y rsq v < tolerance) :
    ∀ fuel i, 1 ≤ i → i ≤ s.p - 2 → s.p - 2 - i < fuel →
      scanA s x y rsq (Iter s (s.p - 1)) fuel (Iter s i)
        (s.pos x y rsq (Iter s i)) = Scan1.intact := by
  intro fuel
  induction fuel with
  | zero => intro i h1 h2 h3; omega
  | succ f ih =>
    intro i h1 h2 h3
    have hp := hwf.1
    have hin : s.pos x y rsq (Iter s i) < tolerance := hall _ (Iter_lt s hwf i)
    simp only [scanA]
    rw [if_pos hin]
    by_cases hip : i = s.p - 2
    · have hstep : s.edS (Iter s i) = Iter s (s.p - 1) := by
        show Iter s (i + 1) = Iter s (s.p - 1)
        congr 1
        omega
      rw [hstep, if_pos rfl]
    · have hne : s.edS (Iter s i) ≠ Iter s (s.p - 1) := by
        show Iter s (i + 1) ≠ Iter s (s.p - 1)
        intro hcontra
        have h9 := Iter_inj s hwf (a := i + 1) (b := s.p - 1) (by omega)
          (by omega) hcontra
        omega
      rw [if_neg hne]
      exact ih (i + 1) (by omega) (by omega) (by omega)

/-- If every vertex is strictly inside the plane, the phase-1 predecessor walk
from `Iter m` reaches `succ(0) = Iter 1` and reports the cell intact. -/
theorem scanB_intact (s : Cell) (x y rsq : ℚ) (hwf : Wf s)
    (hall : ∀ v < s.p, s.pos x y rsq v < tolerance) :
    ∀ fuel m, 2 ≤ m → m ≤ s.p - 1 → m - 2 < fuel →
      scanB s x y rsq (Iter s 1) fuel (Iter s m)
        (s.pos x y rsq (Iter s m)) = Scan1.intact := by
  intro fuel
  induction fuel with
  | zero => intro m h1 h2 h3; omega
  | succ f ih =>
    intro m h1 h2 h3
    have hp := hwf.1
    have hin : s.pos x y rsq (Iter s m) < tolerance := hall _ (Iter_lt s hwf m)
    simp only [scanB]
    rw [if_pos hin]
    have hstep : s.edP (Iter s m) = Iter s (m - 1) := by
      have h := edP_Iter s hwf (m - 1)
      rwa [show (m - 1) + 1 = m by omega] at h
    rw [hstep]
    by_cases him : m = 2
    · rw [if_pos (by rw [him])]
    · have hne : Iter s 1 ≠ Iter s (m - 1) := by
        intro hcontra
        have h9 := Iter_inj s hwf (a := 1) (b := m - 1) (by omega) (by omega)
          hcontra
        omega
      rw [if_neg hne]
      exact ih (m - 1) (by omega) (by omega) (by omega)

/-- C5 (amended): a plane with every live vertex strictly inside
(`pos < tolerance`; the source test `u < tolerance` at cell_2d.cc:134 is
strict) makes `plane` return `true` and leave the cell bitwise unchanged. -/
theorem plane_noncut_strict (s : Cell) (x y rsq : ℚ) (fuel : ℕ) (hwf : Wf s)
    (hall : ∀ v < s.p, s.pos x y rsq v < tolerance) (hfuel : s.p ≤ fuel) :
    plane fuel s x y rsq = some (true, s) := by
  have hph : phase1 s x y rsq fuel = Scan1.intact := by
    unfold phase1
    rw [if_pos (hall 0 hwf.1)]
    by_cases hp1 : s.p = 1
    · have he : s.edS 0 = 0 := by
        have h := hwf.2.2.2.2
        rwa [hp1] at h
      have hpd : s.edP 0 = 0 := by
        have h := edP_edS s hwf (v := 0) hwf.1
        rwa [he] at h
      rw [he, hpd, if_neg (lt_irrefl _)]
      obtain ⟨f, rfl⟩ : ∃ f, fuel = f + 1 := ⟨fuel - 1, by omega⟩
      simp only [scanB]
      rw [if_pos (hall 0 hwf.1), hpd, if_pos rfl]
    · by_cases hp2 : s.p = 2
      · have hpd : s.edP 0 = Iter s 1 := by rw [edP_zero s hwf, hp2]
        rw [show s.edS 0 = Iter s 1 from rfl, hpd, if_neg (lt_irrefl _)]
        obtain ⟨f, rfl⟩ : ∃ f, fuel = f + 1 + 1 := ⟨fuel - 2, by omega⟩
        simp only [scanB]
        rw [if_pos (hall _ (Iter_lt s hwf 1)), edP_Iter s hwf 0]
        rw [if_neg (fun hcontra =>
          absurd (Iter_inj s hwf (a := 1) (b := 0) (by omega) hwf.1 hcontra)
            (by omega))]
        rw [if_pos (hall _ (Iter_lt s hwf 0))]
        have hpd0 : s.edP (Iter s 0) = Iter s 1 := by
          show s.edP 0 = Iter s 1
          exact hpd
        rw [hpd0, if_pos rfl]
      · have hp3 : 3 ≤ s.p := by have := hwf.1; omega
        rw [edP_zero s hwf, show s.edS 0 = Iter s 1 from rfl]
        by_cases hcmp :
            s.pos x y rsq (Iter s 1) > s.pos x y rsq (Iter s (s.p - 1))
        · rw [if_pos hcmp]
          exact scanA_intact s x y rsq hwf hall fuel 1 le_rfl (by omega)
            (by omega)
        · rw [if_neg hcmp]
          exact scanB_intact s x y rsq hwf hall fuel (s.p - 1) (by omega)
            le_rfl (by omega)
  unfold plane
  rw [hph]
  simp only [planeGo1]

/-- C5 witness: `plane_noncut_strict` on the seed square and the plane
`(1, 0, 5)`, which misses the cell. -/
theorem plane_noncut_strict_witness :
    plane 8 squareCell 1 0 5 = some (true, squareCell) :=
  plane_noncut_strict squareCell 1 0 5 8 (by with_unfolding_all decide)
    (by with_unfolding_all decide) (by norm_num [squareCell, init, emptyCell])

/-- Live adjacency entries, read as integers. -/
theorem ed_even_eq (s : Cell) (hwf : Wf s) {v : ℕ} (hv : v < s.p) :
    s.ed (2 * v) = (s.edS v : ℤ) := by
  have h := hwf.2.1 v hv
  unfold edS
  omega

/-- Live adjacency entries, read as integers (predecessor side). -/
theorem ed_odd_eq (s : Cell) (hwf : Wf s) {v : ℕ} (hv : v < s.p) :
    s.ed (2 * v + 1) = (s.edP v : ℤ) := by
  have h := hwf.2.1 v hv
  unfold edP
  omega

/-- Iterates from any live vertex stay in range. -/
theorem IterF_lt (s : Cell) (hwf : Wf s) {v : ℕ} (hv : v < s.p) :
    ∀ k, IterF s v k < s.p := by
  intro k
  induction k with
  | zero => exact hv
  | succ n ih => exact edS_lt s hwf ih

/-- An iterate from `v = Iter a` is an iterate from 0 with shifted exponent. -/
theorem IterF_eq_Iter (s : Cell) {v a : ℕ} (hva : Iter s a = v) :
    ∀ k, IterF s v k = Iter s (a + k) := by
  intro k
  induction k with
  | zero => simpa using hva.symm
  | succ n ih =>
    show s.edS (IterF s v n) = Iter s (a + (n + 1))
    rw [ih, show a + (n + 1) = (a + n) + 1 by omega]
    rfl

/-- A period shorter than `p` is impossible, cancellation form. -/
theorem Iter_cancel_left (s : Cell) (hwf : Wf s) (a d : ℕ)
    (h : Iter s a = Iter s (a + d)) (hd : d < s.p) : d = 0 := by
  by_contra hne
  have h0 : Iter s 0 = Iter s d := Iter_strip_many s hwf a d h
  exact Iter_no_small_period s hwf (by omega) hd (by rw [← h0]; rfl)

/-- Iterates from a fixed live vertex with exponents below `p` are pairwise
distinct. -/
theorem IterF_inj (s : Cell) (hwf : Wf s) {v : ℕ} (hv : v < s.p) {a b : ℕ}
    (ha : a < s.p) (hb : b < s.p) (hab : IterF s v a = IterF s v b) : a = b := by
  obtain ⟨a0, _, ha0⟩ := hwf.2.2.2.1 v hv
  rw [IterF_eq_Iter s ha0, IterF_eq_Iter s ha0] at hab
  rcases le_total a b with hle | hle
  · have := Iter_cancel_left s hwf (a0 + a) (b - a)
      (by rwa [show a0 + a + (b - a) = a0 + b by omega]) (by omega)
    omega
  · have := Iter_cancel_left s hwf (a0 + b) (a - b)
      (by rw [show a0 + b + (a - b) = a0 + a by omega]; exact hab.symm)
      (by omega)
    omega

/-- The orbit from any live vertex closes after exactly `p` steps. -/
theorem IterF_p (s : Cell) (hwf : Wf s) {v : ℕ} (hv : v < s.p) :
    IterF s v s.p = v := by
  obtain ⟨a0, _, ha0⟩ := hwf.2.2.2.1 v hv
  rw [IterF_eq_Iter s ha0, show a0 + s.p = s.p + a0 by omega,
    show Iter s (s.p + a0) = Iter s (a0 + s.p) by rw [Nat.add_comm],
    Iter_add_period s s.p hwf.2.2.2.2, ha0]

/-- One predecessor step moves an `IterF` exponent down by one. -/
theorem edP_IterF (s : Cell) (hwf : Wf s) {v : ℕ} (hv : v < s.p) (k : ℕ) :
    s.edP (IterF s v (k + 1)) = IterF s v k := by
  show s.edP (s.edS (IterF s v k)) = IterF s v k
  exact edP_edS s hwf (IterF_lt s hwf hv k)

/-- Every live vertex is an iterate (with exponent below `p`) of any fixed
live vertex. -/
theorem IterF_surj (s : Cell) (hwf : Wf s) {v : ℕ} (hv : v < s.p) {w : ℕ}
    (hw : w < s.p) : ∃ e < s.p, IterF s v e = w := by
  obtain ⟨a0, ha0p, ha0⟩ := hwf.2.2.2.1 v hv
  obtain ⟨b, hbp, hb⟩ := hwf.2.2.2.1 w hw
  rcases le_or_lt a0 b with hle | hle
  · exact ⟨b - a0, by omega,
      by rw [IterF_eq_Iter s ha0, show a0 + (b - a0) = b by omega, hb]⟩
  · refine ⟨b + s.p - a0, by omega, ?_⟩
    rw [IterF_eq_Iter s ha0, show a0 + (b + s.p - a0) = b + s.p by omega,
      Iter_add_period s s.p hwf.2.2.2.2, hb]

/-- `findLive` returns the highest non-tombstoned slot below `p`, provided one
exists. -/
theorem findLive_spec (ed : ℕ → ℤ) :
    ∀ p : ℕ, (∃ w, w < p ∧ ed (2 * w) ≠ -1) →
      findLive ed p < p ∧ ed (2 * findLive ed p) ≠ -1 ∧
        ∀ e, findLive ed p < e → e < p → ed (2 * e) = -1
  | 0 => by
    rintro ⟨w, hw, _⟩
    omega
  | q + 1 => by
    rintro ⟨w, hw, hwt⟩
    simp only [findLive]
    by_cases hq : ed (2 * q) = -1
    · rw [if_pos hq]
      have hwq : w ≠ q := fun h' => hwt (h' ▸ hq)
      obtain ⟨g1, g2, g3⟩ := findLive_spec ed q ⟨w, by omega, hwt⟩
      refine ⟨by omega, g2, ?_⟩
      intro e he1 he2
      by_cases heq : e = q
      · exact heq ▸ hq
      · exact g3 e he1 (by omega)
    · rw [if_neg hq]
      exact ⟨by omega, hq, fun e he1 he2 => by omega⟩

/-- Phase-6 compaction preserves a consistent live adjacency: starting from a
state whose delete-stack entries are tombstoned and whose live set `L` carries
a consistent doubly-linked structure, the compacted state has consistent
in-range adjacency on all of `[0, p')`. -/
theorem compactLoop_adjacency :
    ∀ (R : List ℕ) (p : ℕ) (pts : ℕ → ℚ) (ed : ℕ → ℤ) (L : Finset ℕ),
      R.Nodup → (∀ r ∈ R, ed (2 * r) = -1) → (∀ v ∈ L, v < p) →
      (∀ w, w < p → w ∈ L ∨ w ∈ R) → (∀ v ∈ L, v ∉ R) → L.Nonempty →
      LiveAdj ed L →
      ∀ v, v < (compactLoop R p pts ed).1 →
        0 ≤ (compactLoop R p pts ed).2.2 (2 * v) ∧
        (compactLoop R p pts ed).2.2 (2 * v) < ((compactLoop R p pts ed).1 : ℤ) ∧
        0 ≤ (compactLoop R p pts ed).2.2 (2 * v + 1) ∧
        (compactLoop R p pts ed).2.2 (2 * v + 1) <
          ((compactLoop R p pts ed).1 : ℤ) ∧
        (compactLoop R p pts ed).2.2
          (2 * ((compactLoop R p pts ed).2.2 (2 * v)).toNat + 1) = (v : ℤ) ∧
        (compactLoop R p pts ed).2.2
          (2 * ((compactLoop R p pts ed).2.2 (2 * v + 1)).toNat) = (v : ℤ) := by
  intro R
  induction R with
  | nil =>
    intro p pts ed L h1 h2 h3 h4 h5 hne h6 v hv
    simp only [compactLoop] at hv ⊢
    have hvL : v ∈ L := by
      rcases h4 v hv with h | h
      · exact h
      · simp at h
    obtain ⟨c1, c2, c3, c4, c5, c6, c7, c8⟩ := h6 v hvL
    have hsl : (ed (2 * v)).toNat < p := h3 _ c3
    have hpl : (ed (2 * v + 1)).toNat < p := h3 _ c4
    exact ⟨c1, by omega, c2, by omega, c7, c8⟩
  | cons up rest ih =>
    intro p pts ed L h1 h2 h3 h4 h5 hne h6 v hv
    obtain ⟨w0, hw0L⟩ := hne
    have hw0p : w0 < p := h3 _ hw0L
    have hw0t : ed (2 * w0) ≠ -1 := by
      have := (h6 w0 hw0L).1
      omega
    obtain ⟨hqp, hqt, hqmax⟩ := findLive_spec ed p ⟨w0, hw0p, hw0t⟩
    set q := findLive ed p with hq
    have hqL : q ∈ L := by
      rcases h4 _ hqp with h | h
      · exact h
      · exact absurd (h2 _ h) hqt
    have hlive_le : ∀ w ∈ L, w ≤ q := by
      intro w hwL
      by_contra hlt
      have hwp : w < p := h3 _ hwL
      have h9 := hqmax w (by omega) hwp
      have h10 := (h6 w hwL).1
      omega
    have hupR : up ∈ up :: rest := List.mem_cons_self up rest
    have hupnotL : up ∉ L := fun hupL => h5 up hupL hupR
    have hupq : up ≠ q := fun h' => hupnotL (h' ▸ hqL)
    have hrestnodup : rest.Nodup := (List.nodup_cons.mp h1).2
    have hupnotrest : up ∉ rest := (List.nodup_cons.mp h1).1
    obtain ⟨d1, d2, d3, d4, d5, d6, d7, d8⟩ := h6 q hqL
    set a := (ed (2 * q)).toNat with ha
    set b := (ed (2 * q + 1)).toNat with hb
    have hedq : ed (2 * q) = (a : ℤ) := by
      rw [ha]; exact (Int.toNat_of_nonneg d1).symm
    have hedq1 : ed (2 * q + 1) = (b : ℤ) := by
      rw [hb]; exact (Int.toNat_of_nonneg d2).symm
    by_cases hcase : up < q
    · simp only [compactLoop] at hv ⊢
      rw [← hq] at hv ⊢
      rw [if_pos hcase] at hv ⊢
      rw [← ha] at hv ⊢
      have r1 : (Function.update ed (2 * a + 1) (up : ℤ)) (2 * q + 1) =
          (b : ℤ) := by
        rw [Function.update_noteq (by omega : 2 * q + 1 ≠ 2 * a + 1), hedq1]
      rw [r1] at hv ⊢
      simp only [Int.toNat_natCast] at hv ⊢
      have r2 : (Function.update (Function.update ed (2 * a + 1) (up : ℤ))
          (2 * b) (up : ℤ)) (2 * q) = (a : ℤ) := by
        rw [Function.update_noteq (by omega : 2 * q ≠ 2 * b),
          Function.update_noteq (by omega : 2 * q ≠ 2 * a + 1), hedq]
      rw [r2] at hv ⊢
      have r3 : (Function.update (Function.update (Function.update ed
          (2 * a + 1) (up : ℤ)) (2 * b) (up : ℤ)) (2 * up) (a : ℤ))
          (2 * q + 1) = (b : ℤ) := by
        rw [Function.update_noteq (by omega : 2 * q + 1 ≠ 2 * up),
          Function.update_noteq (by omega : 2 * q + 1 ≠ 2 * b),
          Function.update_noteq (by omega : 2 * q + 1 ≠ 2 * a + 1), hedq1]
      rw [r3] at hv ⊢
      set edn := Function.update (Function.update (Function.update
        (Function.update ed (2 * a + 1) (up : ℤ)) (2 * b) (up : ℤ)) (2 * up)
        (a : ℤ)) (2 * up + 1) (b : ℤ) with hedn
      have hednval : ∀ k, edn k =
          if k = 2 * up + 1 then (b : ℤ) else if k = 2 * up then (a : ℤ)
          else if k = 2 * b then (up : ℤ) else if k = 2 * a + 1 then (up : ℤ)
          else ed k := by
        intro k
        rw [hedn]
        simp only [Function.update_apply]
      have hmem : ∀ x, x ∈ insert up (L.erase q) ↔
          x = up ∨ (x ≠ q ∧ x ∈ L) := by
        intro x
        simp [Finset.mem_insert, Finset.mem_erase]
      refine ih _ _ _ (insert up (L.erase q)) hrestnodup ?_ ?_ ?_ ?_
        ⟨up, (hmem up).mpr (Or.inl rfl)⟩ ?_ v hv
      · intro r hr
        have hru : r ≠ up := fun h' => hupnotrest (h' ▸ hr)
        have hrb : r ≠ b := fun h' => h5 b d4 (h' ▸ List.mem_cons_of_mem up hr)
        rw [hednval]
        rw [if_neg (by omega), if_neg (by omega), if_neg (by omega),
          if_neg (by omega)]
        exact h2 r (List.mem_cons_of_mem up hr)
      · intro x hx
        rcases (hmem x).mp hx with rfl | ⟨hxq, hxL⟩
        · exact hcase
        · exact lt_of_le_of_ne (hlive_le x hxL) hxq
      · intro w hw
        rcases h4 w (by omega) with hwL | hwR
        · exact Or.inl ((hmem w).mpr (Or.inr ⟨by omega, hwL⟩))
        · rcases List.mem_cons.mp hwR with rfl | hwrest
          · exact Or.inl ((hmem w).mpr (Or.inl rfl))
          · exact Or.inr hwrest
      · intro x hx
        rcases (hmem x).mp hx with rfl | ⟨hxq, hxL⟩
        · exact hupnotrest
        · exact fun hxr => h5 x hxL (List.mem_cons_of_mem up hxr)
      · intro x hx
        rcases (hmem x).mp hx with hxup | ⟨hxq, hxL⟩
        · rw [hxup]
          have hanup : a ≠ up := fun h' => hupnotL (h' ▸ d3)
          have hbnup : b ≠ up := fun h' => hupnotL (h' ▸ d4)
          have e1 : edn (2 * up) = (a : ℤ) := by
            rw [hednval, if_neg (by omega), if_pos rfl]
          have e2 : edn (2 * up + 1) = (b : ℤ) := by
            rw [hednval, if_pos rfl]
          have e3 : edn (2 * a + 1) = (up : ℤ) := by
            rw [hednval, if_neg (by omega), if_neg (by omega),
              if_neg (by omega), if_pos rfl]
          have e4 : edn (2 * b) = (up : ℤ) := by
            rw [hednval, if_neg (by omega), if_neg (by omega), if_pos rfl]
          refine ⟨by rw [e1]; exact Int.natCast_nonneg a,
            by rw [e2]; exact Int.natCast_nonneg b, ?_, ?_, ?_, ?_, ?_, ?_⟩
          · rw [e1, Int.toNat_natCast]
            exact (hmem a).mpr (Or.inr ⟨d5, d3⟩)
          · rw [e2, Int.toNat_natCast]
            exact (hmem b).mpr (Or.inr ⟨d6, d4⟩)
          · rw [e1, Int.toNat_natCast]
            exact hanup
          · rw [e2, Int.toNat_natCast]
            exact hbnup
          · rw [e1, Int.toNat_natCast]
            exact e3
          · rw [e2, Int.toNat_natCast]
            exact e4
        · obtain ⟨c1, c2, c3, c4, c5, c6, c7, c8⟩ := h6 x hxL
          have hxu : x ≠ up := fun h' => hupnotL (h' ▸ hxL)
          set sv := (ed (2 * x)).toNat with hsv
          set pv := (ed (2 * x + 1)).toNat with hpv
          have hedx : ed (2 * x) = (sv : ℤ) := by
            rw [hsv]; exact (Int.toNat_of_nonneg c1).symm
          have hedx1 : ed (2 * x + 1) = (pv : ℤ) := by
            rw [hpv]; exact (Int.toNat_of_nonneg c2).symm
          have hsvu : sv ≠ up := fun h' => hupnotL (h' ▸ c3)
          have hpvu : pv ≠ up := fun h' => hupnotL (h' ▸ c4)
          have hsvq : sv = q → x = b := by
            intro h'
            have h9 : ed (2 * q + 1) = (x : ℤ) := h' ▸ c7
            rw [hedq1] at h9
            exact_mod_cast h9.symm
          have hpvq : pv = q → x = a := by
            intro h'
            have h9 : ed (2 * q) = (x : ℤ) := h' ▸ c8
            rw [hedq] at h9
            exact_mod_cast h9.symm
          have es : edn (2 * x) = if x = b then (up : ℤ) else (sv : ℤ) := by
            rw [hednval, if_neg (by omega), if_neg (by omega)]
            by_cases hxb : x = b
            · rw [if_pos (by omega), if_pos hxb]
            · rw [if_neg (by omega), if_neg (by omega), hedx, if_neg hxb]
          have ep : edn (2 * x + 1) =
              if x = a then (up : ℤ) else (pv : ℤ) := by
            rw [hednval, if_neg (by omega), if_neg (by omega),
              if_neg (by omega)]
            by_cases hxa : x = a
            · rw [if_pos (by omega), if_pos hxa]
            · rw [if_neg (by omega), hedx1, if_neg hxa]
          refine ⟨?_, ?_, ?_, ?_, ?_, ?_, ?_, ?_⟩
          · rw [es]
            split_ifs <;> exact Int.natCast_nonneg _
          · rw [ep]
            split_ifs <;> exact Int.natCast_nonneg _
          · rw [es]
            by_cases hxb : x = b
            · rw [if_pos hxb, Int.toNat_natCast]
              exact (hmem up).mpr (Or.inl rfl)
            · rw [if_neg hxb, Int.toNat_natCast]
              exact (hmem sv).mpr (Or.inr ⟨fun h' => hxb (hsvq h'), c3⟩)
          · rw [ep]
            by_cases hxa : x = a
            · rw [if_pos hxa, Int.toNat_natCast]
              exact (hmem up).mpr (Or.inl rfl)
            · rw [if_neg hxa, Int.toNat_natCast]
              exact (hmem pv).mpr (Or.inr ⟨fun h' => hxa (hpvq h'), c4⟩)
          · rw [es]
            by_cases hxb : x = b
            · rw [if_pos hxb, Int.toNat_natCast]
              exact Ne.symm hxu
            · rw [if_neg hxb, Int.toNat_natCast]
              exact c5
          · rw [ep]
            by_cases hxa : x = a
            · rw [if_pos hxa, Int.toNat_natCast]
              exact Ne.symm hxu
            · rw [if_neg hxa, Int.toNat_natCast]
              exact c6
          · rw [es]
            by_cases hxb : x = b
            · rw [if_pos hxb, Int.toNat_natCast, hednval, if_pos rfl, hxb]
            · rw [if_neg hxb, Int.toNat_natCast, hednval]
              have hsva : sv ≠ a := by
                intro h'
                have h9 : ed (2 * a + 1) = (x : ℤ) := h' ▸ c7
                rw [d7] at h9
                exact hxq (by exact_mod_cast h9.symm)
              rw [if_neg (by omega), if_neg (by omega), if_neg (by omega),
                if_neg (by omega)]
              exact c7
          · rw [ep]
            by_cases hxa : x = a
            · rw [if_pos hxa, Int.toNat_natCast, hednval, if_neg (by omega),
                if_pos rfl, hxa]
            · rw [if_neg hxa, Int.toNat_natCast, hednval]
              have hpvb : pv ≠ b := by
                intro h'
                have h9 : ed (2 * b) = (x : ℤ) := h' ▸ c8
                rw [d8] at h9
                exact hxq (by exact_mod_cast h9.symm)
              rw [if_neg (by omega), if_neg (by omega), if_neg (by omega),
                if_neg (by omega)]
              exact c8
    · simp only [compactLoop] at hv ⊢
      rw [← hq] at hv ⊢
      rw [if_neg hcase] at hv ⊢
      refine ih _ _ _ L hrestnodup ?_ ?_ ?_ ?_ ⟨w0, hw0L⟩ h6 v hv
      · exact fun r hr => h2 r (List.mem_cons_of_mem up hr)
      · intro x hxL
        have := hlive_le x hxL
        omega
      · intro w hw
        rcases h4 w (by omega) with hwL | hwR
        · exact Or.inl hwL
        · rcases List.mem_cons.mp hwR with rfl | hwrest
          · exact absurd (show w = q by omega) hupq
          · exact Or.inr hwrest
      · exact fun x hxL hxr => h5 x hxL (List.mem_cons_of_mem up hxr)

/-- Membership in the clockwise delete stack: exactly the iterates with
exponent below the number of pushes. -/
theorem mem_sweepList (s : Cell) (v : ℕ) :
    ∀ n w, w ∈ sweepList s v n ↔ ∃ e, e < n ∧ IterF s v e = w
  | 0, w => by
    simp only [sweepList]
    constructor
    · intro h
      exact absurd h (List.not_mem_nil w)
    · rintro ⟨e, he, _⟩
      omega
  | n + 1, w => by
    simp only [sweepList, List.mem_cons]
    rw [mem_sweepList s v n]
    constructor
    · rintro (rfl | ⟨e, he, hew⟩)
      · exact ⟨n, by omega, rfl⟩
      · exact ⟨e, by omega, hew⟩
    · rintro ⟨e, he, hew⟩
      by_cases hen : e = n
      · subst hen
        exact Or.inl hew.symm
      · exact Or.inr ⟨e, by omega, hew⟩

/-- Membership in the counter-clockwise delete-stack segment. -/
theorem mem_predList (s : Cell) (v start len w : ℕ) :
    w ∈ predList s v start len ↔ ∃ i, i < len ∧ IterF s v (start + i) = w := by
  simp only [predList, List.mem_map, List.mem_range]

/-- Peeling one element off the front of a `predList`. -/
theorem predList_cons (s : Cell) (v start len : ℕ) :
    predList s v start (len + 1) =
      IterF s v start :: predList s v (start + 1) len := by
  simp only [predList, List.range_succ_eq_map, List.map_cons, List.map_map,
    Nat.add_zero]
  congr 1
  congr 1
  funext i
  simp only [Function.comp_apply]
  congr 1
  omega

/-- The clockwise delete stack has no duplicates while the walk is shorter
than the cycle. -/
theorem sweepList_nodup (s : Cell) (hwf : Wf s) {v : ℕ} (hv : v < s.p) :
    ∀ n, n ≤ s.p → (sweepList s v n).Nodup := by
  intro n
  induction n with
  | zero =>
    intro _
    simp [sweepList]
  | succ m ih =>
    intro hn
    show (IterF s v m :: sweepList s v m).Nodup
    refine List.nodup_cons.mpr ⟨?_, ih (by omega)⟩
    rw [mem_sweepList]
    rintro ⟨e, he, hew⟩
    have h9 := IterF_inj s hwf hv (by omega) (by omega) hew
    omega

/-- The counter-clockwise delete-stack segment has no duplicates while it
stays within one period. -/
theorem predList_nodup (s : Cell) (hwf : Wf s) {v : ℕ} (hv : v < s.p)
    (start len : ℕ) (hlen : start + len ≤ s.p) :
    (predList s v start len).Nodup := by
  unfold predList
  refine List.Nodup.map_on ?_ (List.nodup_range len)
  intro i hi i2 hi2 hii
  simp only [List.mem_range] at hi hi2
  have h9 := IterF_inj s hwf hv (show start + i < s.p by omega)
    (show start + i2 < s.p by omega) hii
  omega

/-- The tombstone fold never revives an entry. -/
theorem mark_keep (R0 : List ℕ) :
    ∀ (e : ℕ → ℤ) (k : ℕ), e k = -1 →
      (R0.foldl (fun e v => Function.update e (2 * v) (-1 : ℤ)) e) k = -1 := by
  induction R0 with
  | nil =>
    intro e k h
    exact h
  | cons r R ih =>
    intro e k h
    simp only [List.foldl_cons]
    refine ih _ _ ?_
    rw [Function.update_apply]
    split_ifs
    · rfl
    · exact h

/-- Every stacked slot is tombstoned by the marking fold. -/
theorem mark_mem (R0 : List ℕ) :
    ∀ (e : ℕ → ℤ) (r : ℕ), r ∈ R0 →
      (R0.foldl (fun e v => Function.update e (2 * v) (-1 : ℤ)) e) (2 * r) =
        -1 := by
  induction R0 with
  | nil =>
    intro e r h
    exact absurd h (List.not_mem_nil r)
  | cons r0 R ih =>
    intro e r h
    simp only [List.foldl_cons]
    rcases List.mem_cons.mp h with rfl | hr
    · exact mark_keep R _ _ (Function.update_same _ _ _)
    · exact ih _ _ hr

/-- The marking fold leaves every non-stacked index unchanged. -/
theorem mark_other (R0 : List ℕ) :
    ∀ (e : ℕ → ℤ) (k : ℕ), (∀ r ∈ R0, k ≠ 2 * r) →
      (R0.foldl (fun e v => Function.update e (2 * v) (-1 : ℤ)) e) k = e k := by
  induction R0 with
  | nil =>
    intro e k _
    rfl
  | cons r0 R ih =>
    intro e k h
    simp only [List.foldl_cons]
    rw [ih _ _ (fun r hr => h r (List.mem_cons_of_mem r0 hr)),
      Function.update_noteq (h r0 (List.mem_cons_self r0 R))]

/-- If the uphill successor walk of phase 1 reports `found`, the vertex is
live, the reported value is its `pos`, and it is not below the tolerance. -/
theorem scanA_found (s : Cell) (x y rsq : ℚ) (hwf : Wf s) (up3 : ℕ) :
    ∀ fuel up2 u2, up2 < s.p → u2 = s.pos x y rsq up2 →
      ∀ {w : ℕ} {u : ℚ}, scanA s x y rsq up3 fuel up2 u2 = .found w u →
        w < s.p ∧ u = s.pos x y rsq w ∧ ¬ u < tolerance := by
  intro fuel
  induction fuel with
  | zero =>
    intro up2 u2 h1 h2 w u h
    simp only [scanA] at h
    by_cases hc : u2 < tolerance
    · rw [if_pos hc] at h
      exact Scan1.noConfusion h
    · rw [if_neg hc] at h
      cases h
      exact ⟨h1, h2, hc⟩
  | succ fuel ih =>
    intro up2 u2 h1 h2 w u h
    simp only [scanA] at h
    by_cases hc : u2 < tolerance
    · rw [if_pos hc] at h
      by_cases hc2 : s.edS up2 = up3
      · rw [if_pos hc2] at h
        exact Scan1.noConfusion h
      · rw [if_neg hc2] at h
        exact ih _ _ (edS_lt s hwf h1) rfl h
    · rw [if_neg hc] at h
      cases h
      exact ⟨h1, h2, hc⟩

/-- If the uphill predecessor walk of phase 1 reports `found`, the vertex is
live, the reported value is its `pos`, and it is not below the tolerance. -/
theorem scanB_found (s : Cell) (x y rsq : ℚ) (hwf : Wf s) (up2 : ℕ) :
    ∀ fuel up3 u3, up3 < s.p → u3 = s.pos x y rsq up3 →
      ∀ {w : ℕ} {u : ℚ}, scanB s x y rsq up2 fuel up3 u3 = .found w u →
        w < s.p ∧ u = s.pos x y rsq w ∧ ¬ u < tolerance := by
  intro fuel
  induction fuel with
  | zero =>
    intro up3 u3 h1 h2 w u h
    simp only [scanB] at h
    by_cases hc : u3 < tolerance
    · rw [if_pos hc] at h
      exact Scan1.noConfusion h
    · rw [if_neg hc] at h
      cases h
      exact ⟨h1, h2, hc⟩
  | succ fuel ih =>
    intro up3 u3 h1 h2 w u h
    simp only [scanB] at h
    by_cases hc : u3 < tolerance
    · rw [if_pos hc] at h
      by_cases hc2 : up2 = s.edP up3
      · rw [if_pos hc2] at h
        exact Scan1.noConfusion h
      · rw [if_neg hc2] at h
        exact ih _ _ (edP_lt s hwf h1) rfl h
    · rw [if_neg hc] at h
      cases h
      exact ⟨h1, h2, hc⟩

/-- If phase 1 reports `found`, the vertex is live, the reported value is its
`pos`, and it is not below the tolerance. -/
theorem phase1_found (s : Cell) (x y rsq : ℚ) (hwf : Wf s) {fuel w : ℕ}
    {u : ℚ} (h : phase1 s x y rsq fuel = .found w u) :
    w < s.p ∧ u = s.pos x y rsq w ∧ ¬ u < tolerance := by
  simp only [phase1] at h
  by_cases hc : s.pos x y rsq 0 < tolerance
  · rw [if_pos hc] at h
    by_cases hc2 : s.pos x y rsq (s.edS 0) > s.pos x y rsq (s.edP 0)
    · rw [if_pos hc2] at h
      exact scanA_found s x y rsq hwf _ fuel _ _ (edS_lt s hwf hwf.1) rfl h
    · rw [if_neg hc2] at h
      exact scanB_found s x y rsq hwf _ fuel _ _ (edP_lt s hwf hwf.1) rfl h
  · rw [if_neg hc] at h
    cases h
    exact ⟨hwf.1, rfl, hc⟩

/-- Forward characterization of the clockwise sweep: from iterate `m` of the
outside anchor `up`, with all iterates strictly outside up to the first
non-outside exponent `j`, the sweep either exhausts its fuel or stops at
iterate `j` with delete stack `sweepList j`. -/
theorem sweepSucc_stop_spec (s : Cell) (x y rsq : ℚ) (hwf : Wf s) {up j : ℕ}
    (hupp : up < s.p) (hj1 : 1 ≤ j) (hjp : j ≤ s.p - 1)
    (hout : ∀ e, 1 ≤ e → e < j → tolerance < s.pos x y rsq (IterF s up e))
    (hstop : ¬ tolerance < s.pos x y rsq (IterF s up j)) :
    ∀ fuel m l, 1 ≤ m → m ≤ j →
      sweepSucc s x y rsq up fuel (sweepList s up m) l (IterF s up m)
          (s.pos x y rsq (IterF s up m)) = .stuck ∨
      ∃ l2, sweepSucc s x y rsq up fuel (sweepList s up m) l (IterF s up m)
          (s.pos x y rsq (IterF s up m)) =
        .stop (sweepList s up j) l2 (IterF s up j)
          (s.pos x y rsq (IterF s up j)) := by
  have hp1 : 1 ≤ s.p := hwf.1
  intro fuel
  induction fuel with
  | zero =>
    intro m l hm1 hmj
    by_cases hmj' : m = j
    · subst hmj'
      simp only [sweepSucc]
      rw [if_neg hstop]
      exact Or.inr ⟨l, rfl⟩
    · simp only [sweepSucc]
      rw [if_pos (hout m hm1 (by omega))]
      exact Or.inl rfl
  | succ fuel ih =>
    intro m l hm1 hmj
    by_cases hmj' : m = j
    · subst hmj'
      simp only [sweepSucc]
      rw [if_neg hstop]
      exact Or.inr ⟨l, rfl⟩
    · simp only [sweepSucc]
      rw [if_pos (hout m hm1 (by omega))]
      have hne : s.edS (IterF s up m) ≠ up := by
        intro h9
        have h10 : IterF s up (m + 1) = IterF s up 0 := h9
        have h11 := IterF_inj s hwf hupp (by omega) (by omega) h10
        omega
      rw [if_neg hne]
      exact ih (m + 1) (s.pos x y rsq (IterF s up m)) (by omega) (by omega)

/-- If every non-anchor iterate is strictly outside, the clockwise sweep
cannot stop: it wraps around to the anchor or exhausts its fuel. -/
theorem sweepSucc_no_stop (s : Cell) (x y rsq : ℚ) (hwf : Wf s) {up : ℕ}
    (hupp : up < s.p)
    (hall : ∀ e, 1 ≤ e → e ≤ s.p - 1 → tolerance < s.pos x y rsq (IterF s up e)) :
    ∀ fuel m stk l, 1 ≤ m → m ≤ s.p - 1 →
      sweepSucc s x y rsq up fuel stk l (IterF s up m)
          (s.pos x y rsq (IterF s up m)) = .total ∨
      sweepSucc s x y rsq up fuel stk l (IterF s up m)
          (s.pos x y rsq (IterF s up m)) = .stuck := by
  have hp1 : 1 ≤ s.p := hwf.1
  intro fuel
  induction fuel with
  | zero =>
    intro m stk l hm1 hm2
    simp only [sweepSucc]
    rw [if_pos (hall m hm1 hm2)]
    exact Or.inr rfl
  | succ fuel ih =>
    intro m stk l hm1 hm2
    simp only [sweepSucc]
    rw [if_pos (hall m hm1 hm2)]
    by_cases hm3 : m = s.p - 1
    · have h9 : s.edS (IterF s up m) = up := by
        show IterF s up (m + 1) = up
        rw [show m + 1 = s.p by omega]
        exact IterF_p s hwf hupp
      rw [if_pos h9]
      exact Or.inl rfl
    · have hne : s.edS (IterF s up m) ≠ up := by
        intro h9
        have h10 : IterF s up (m + 1) = IterF s up 0 := h9
        have h11 := IterF_inj s hwf hupp (by omega) (by omega) h10
        omega
      rw [if_neg hne]
      exact ih (m + 1) _ (s.pos x y rsq (IterF s up m)) (by omega) (by omega)

/-- Extraction for the clockwise sweep as called by `plane`: a `stop` result
determines a first non-outside exponent `j`, and the stack, vertex and value
of the stop are the corresponding iterate data. -/
theorem sweepSucc_stop_extract (s : Cell) (x y rsq : ℚ) (hwf : Wf s)
    {up fuel : ℕ} {l0 : ℚ} {stk : List ℕ} {l : ℚ} {up2 : ℕ} {u2 : ℚ}
    (hupp : up < s.p) (hp2 : 2 ≤ s.p)
    (h : sweepSucc s x y rsq up fuel [up] l0 (s.edS up)
      (s.pos x y rsq (s.edS up)) = .stop stk l up2 u2) :
    ∃ j, 1 ≤ j ∧ j ≤ s.p - 1 ∧
      (∀ e, 1 ≤ e → e < j → tolerance < s.pos x y rsq (IterF s up e)) ∧
      ¬ tolerance < s.pos x y rsq (IterF s up j) ∧
      stk = sweepList s up j ∧ up2 = IterF s up j ∧
      u2 = s.pos x y rsq (IterF s up j) := by
  have hex : ∃ e, 1 ≤ e ∧ e ≤ s.p - 1 ∧
      ¬ tolerance < s.pos x y rsq (IterF s up e) := by
    by_contra hno
    push_neg at hno
    rcases sweepSucc_no_stop s x y rsq hwf hupp
        (fun e he1 he2 => hno e he1 he2) fuel 1 [up] l0 le_rfl (by omega)
      with h9 | h9
    · exact Scan2.noConfusion (h9.symm.trans h)
    · exact Scan2.noConfusion (h9.symm.trans h)
  set j := Nat.find hex with hj
  obtain ⟨hj1, hjp, hstop⟩ := Nat.find_spec hex
  have hout : ∀ e, 1 ≤ e → e < j → tolerance < s.pos x y rsq (IterF s up e) := by
    intro e he1 hej
    by_contra hT
    exact Nat.find_min hex hej ⟨he1, by omega, hT⟩
  rcases sweepSucc_stop_spec s x y rsq hwf hupp hj1 hjp hout hstop fuel 1 l0
      le_rfl hj1 with h9 | ⟨l2, h9⟩
  · exact Scan2.noConfusion (h9.symm.trans h)
  · have h10 := h9.symm.trans h
    injection h10 with e1 e2 e3 e4
    exact ⟨j, hj1, hjp, hout, hstop, e1.symm, e3.symm, e4.symm⟩

/-- Forward characterization of the counter-clockwise sweep on the phase-3
cell `s1`: walking down from iterate `m`, with all iterates outside strictly
above the stop exponent `t`, the sweep either exhausts its fuel or stops at
iterate `t` having pushed exactly the iterates of exponents `(t, p-1]`.  The
`up3a == up2` break and the ordinary stop produce the same data because the
clockwise stop vertex `j` itself satisfies the stop test. -/
theorem sweepPred_stop_spec (s s1 : Cell) (x y rsq : ℚ) (hwf : Wf s)
    {up j t : ℕ} (stk0 : List ℕ)
    (hupp : up < s.p) (hj1 : 1 ≤ j) (hjt : j ≤ t) (htp : t ≤ s.p - 1)
    (hpredag : ∀ m, j + 1 ≤ m → m ≤ s.p - 1 →
      s1.edP (IterF s up m) = IterF s up (m - 1))
    (hout : ∀ e, t < e → e ≤ s.p - 1 →
      tolerance < s1.pos x y rsq (IterF s up e))
    (hstop : ¬ tolerance < s1.pos x y rsq (IterF s up t)) :
    ∀ fuel m l, t ≤ m → m ≤ s.p - 1 →
      sweepPred s1 x y rsq (IterF s up j) fuel
          (predList s up (m + 1) (s.p - 1 - m) ++ stk0) l (IterF s up m)
          (s1.pos x y rsq (IterF s up m)) = .stuck ∨
      ∃ l2, sweepPred s1 x y rsq (IterF s up j) fuel
          (predList s up (m + 1) (s.p - 1 - m) ++ stk0) l (IterF s up m)
          (s1.pos x y rsq (IterF s up m)) =
        .stop (predList s up (t + 1) (s.p - 1 - t) ++ stk0) l2
          (IterF s up t) (s1.pos x y rsq (IterF s up t)) := by
  have hp1 : 1 ≤ s.p := hwf.1
  intro fuel
  induction fuel with
  | zero =>
    intro m l hm1 hm2
    by_cases hmt : m = t
    · subst hmt
      simp only [sweepPred]
      rw [if_neg hstop]
      exact Or.inr ⟨l, rfl⟩
    · simp only [sweepPred]
      rw [if_pos (hout m (by omega) hm2)]
      exact Or.inl rfl
  | succ fuel ih =>
    intro m l hm1 hm2
    by_cases hmt : m = t
    · subst hmt
      simp only [sweepPred]
      rw [if_neg hstop]
      exact Or.inr ⟨l, rfl⟩
    · have hmt' : t < m := by omega
      simp only [sweepPred]
      rw [if_pos (hout m hmt' hm2)]
      rw [hpredag m (by omega) hm2]
      by_cases hbm : m - 1 = j
      · have htj : t = j := by omega
        rw [hbm, if_pos rfl]
        refine Or.inr ⟨s1.pos x y rsq (IterF s up m), ?_⟩
        rw [htj, show j + 1 = m from by omega,
          show s.p - 1 - j = s.p - 1 - m + 1 from by omega, predList_cons,
          List.cons_append]
      · have hne : IterF s up (m - 1) ≠ IterF s up j := by
          intro h9
          exact hbm (IterF_inj s hwf hupp (show m - 1 < s.p by omega)
            (show j < s.p by omega) h9)
        rw [if_neg hne]
        have hstk9 : IterF s up m ::
            (predList s up (m + 1) (s.p - 1 - m) ++ stk0) =
            predList s up (m - 1 + 1) (s.p - 1 - (m - 1)) ++ stk0 := by
          rw [show m - 1 + 1 = m from by omega,
            show s.p - 1 - (m - 1) = s.p - 1 - m + 1 from by omega,
            predList_cons, List.cons_append]
        rw [hstk9]
        exact ih (m - 1) (s1.pos x y rsq (IterF s up m)) (by omega) (by omega)

/-- Extraction for the counter-clockwise sweep as called by `plane`: a `stop`
result determines a last non-outside exponent `t` in `[j, p-1]`, and the
final stack, vertex and value are the corresponding iterate data. -/
theorem sweepPred_stop_extract (s s1 : Cell) (x y rsq : ℚ) (hwf : Wf s)
    {up j fuel : ℕ} (stk0 : List ℕ) {l0 : ℚ} {stk2 : List ℕ} {l2 : ℚ}
    {up3 : ℕ} {u3 : ℚ}
    (hupp : up < s.p) (hj1 : 1 ≤ j) (hjp : j ≤ s.p - 1)
    (hpredag : ∀ m, j + 1 ≤ m → m ≤ s.p - 1 →
      s1.edP (IterF s up m) = IterF s up (m - 1))
    (hstopj : ¬ tolerance < s1.pos x y rsq (IterF s up j))
    (h : sweepPred s1 x y rsq (IterF s up j) fuel stk0 l0
      (IterF s up (s.p - 1)) (s1.pos x y rsq (IterF s up (s.p - 1))) =
      .stop stk2 l2 up3 u3) :
    ∃ t, j ≤ t ∧ t ≤ s.p - 1 ∧
      (∀ e, t < e → e ≤ s.p - 1 →
        tolerance < s1.pos x y rsq (IterF s up e)) ∧
      ¬ tolerance < s1.pos x y rsq (IterF s up t) ∧
      stk2 = predList s up (t + 1) (s.p - 1 - t) ++ stk0 ∧
      up3 = IterF s up t ∧ u3 = s1.pos x y rsq (IterF s up t) := by
  have hp1 : 1 ≤ s.p := hwf.1
  have hexQ : ∃ i, i ≤ s.p - 1 - j ∧
      ¬ tolerance < s1.pos x y rsq (IterF s up (s.p - 1 - i)) := by
    refine ⟨s.p - 1 - j, le_rfl, ?_⟩
    rw [show s.p - 1 - (s.p - 1 - j) = j from by omega]
    exact hstopj
  obtain ⟨hi1, hi2⟩ := Nat.find_spec hexQ
  set t := s.p - 1 - Nat.find hexQ with ht
  have hjt : j ≤ t := by omega
  have htp : t ≤ s.p - 1 := by omega
  have hstop : ¬ tolerance < s1.pos x y rsq (IterF s up t) := hi2
  have hout : ∀ e, t < e → e ≤ s.p - 1 →
      tolerance < s1.pos x y rsq (IterF s up e) := by
    intro e he1 he2
    have h9 := Nat.find_min hexQ (show s.p - 1 - e < Nat.find hexQ from by omega)
    by_contra hT
    refine h9 ⟨by omega, ?_⟩
    rw [show s.p - 1 - (s.p - 1 - e) = e from by omega]
    exact hT
  have e0 : s.p - 1 - (s.p - 1) = 0 := by omega
  rcases sweepPred_stop_spec s s1 x y rsq hwf stk0 hupp hj1 hjt htp hpredag
      hout hstop fuel (s.p - 1) l0 htp le_rfl with h9 | ⟨l9, h9⟩
  · rw [e0] at h9
    exact Scan4.noConfusion (h9.symm.trans h)
  · rw [e0] at h9
    have h10 := h9.symm.trans h
    injection h10 with e1 e2 e3 e4
    exact ⟨t, hjt, htp, hout, hstop, e1.symm, e3.symm, e4.symm⟩

/-- Phases 5-6 starting from the phase-3 on-plane case (`cp` is the existing
vertex `IterF j`, the cell is untouched): wiring the single new boundary
vertex and compacting restores consistent in-range adjacency. -/
theorem planeFinishA_adjacency (s : Cell) {up j t : ℕ}
    (l2 u3 : ℚ) (hwf : Wf s) (hupp : up < s.p) (hj1 : 1 ≤ j) (hjt : j ≤ t)
    (htp : t ≤ s.p - 1) (hu3 : ¬ u3 > tolerance) :
    AdjOK (planeFinish s (IterF s up j)
      (predList s up (t + 1) (s.p - 1 - t) ++ sweepList s up j) l2
      (IterF s up t) u3) := by
  have hp1 : 1 ≤ s.p := hwf.1
  have hoe_lt : ∀ e, IterF s up e < s.p := IterF_lt s hwf hupp
  have hinj : ∀ {a b : ℕ}, a < s.p → b < s.p →
      IterF s up a = IterF s up b → a = b :=
    fun ha hb hab => IterF_inj s hwf hupp ha hb hab
  intro v hv
  simp only [planeFinish] at hv ⊢
  rw [if_neg hu3] at hv ⊢
  dsimp only at hv ⊢
  have hstkmem : ∀ w, w ∈ predList s up (t + 1) (s.p - 1 - t) ++
      sweepList s up j ↔
      ∃ e, (e < j ∨ (t < e ∧ e ≤ s.p - 1)) ∧ IterF s up e = w := by
    intro w
    rw [List.mem_append, mem_predList, mem_sweepList]
    constructor
    · rintro (⟨i, hi, hiw⟩ | ⟨e, he, hew⟩)
      · exact ⟨t + 1 + i, Or.inr ⟨by omega, by omega⟩, hiw⟩
      · exact ⟨e, Or.inl he, hew⟩
    · rintro ⟨e, he | ⟨he1, he2⟩, hew⟩
      · exact Or.inr ⟨e, he, hew⟩
      · refine Or.inl ⟨e - (t + 1), by omega, ?_⟩
        rw [show t + 1 + (e - (t + 1)) = e from by omega]
        exact hew
  have hstknd : (predList s up (t + 1) (s.p - 1 - t) ++
      sweepList s up j).Nodup := by
    refine List.Nodup.append
      (predList_nodup s hwf hupp (t + 1) (s.p - 1 - t) (by omega))
      (sweepList_nodup s hwf hupp j (by omega)) ?_
    intro w hw1 hw2
    rw [mem_predList] at hw1
    rw [mem_sweepList] at hw2
    obtain ⟨i, hi, hiw⟩ := hw1
    obtain ⟨e, he, hew⟩ := hw2
    have h9 := hinj (show t + 1 + i < s.p from by omega)
      (show e < s.p from by omega) (hiw.trans hew.symm)
    omega
  have hstkp : ∀ w ∈ predList s up (t + 1) (s.p - 1 - t) ++
      sweepList s up j, w < s.p := by
    intro w hw
    obtain ⟨e, _, hew⟩ := (hstkmem w).mp hw
    rw [← hew]
    exact hoe_lt e
  have hlive_notin : ∀ e, j ≤ e → e ≤ t →
      IterF s up e ∉ predList s up (t + 1) (s.p - 1 - t) ++
        sweepList s up j := by
    intro e he1 he2 hmem
    obtain ⟨e2, he2', hee⟩ := (hstkmem _).mp hmem
    have h9 := hinj (show e2 < s.p from by omega)
      (show e < s.p from by omega) hee
    omega
  have hp_notin : s.p ∉ predList s up (t + 1) (s.p - 1 - t) ++
      sweepList s up j := by
    intro hmem
    have h9 := hstkp _ hmem
    omega
  set stk2 := predList s up (t + 1) (s.p - 1 - t) ++ sweepList s up j
    with hstk2
  set c := IterF s up j with hc
  set o3 := IterF s up t with ho3
  have hcp : c < s.p := by
    rw [hc]
    exact hoe_lt j
  have ho3p : o3 < s.p := by
    rw [ho3]
    exact hoe_lt t
  set ed4 := Function.update (Function.update (Function.update
    (Function.update s.ed (2 * s.p) (c : ℤ)) (2 * c + 1) (s.p : ℤ))
    (2 * s.p + 1) (o3 : ℤ)) (2 * o3) (s.p : ℤ) with hed4
  set edm := stk2.foldl (fun e v => Function.update e (2 * v) (-1 : ℤ)) ed4
    with hedm
  have hed4_at : ∀ k, ed4 k =
      if k = 2 * o3 then (s.p : ℤ) else if k = 2 * s.p + 1 then (o3 : ℤ)
      else if k = 2 * c + 1 then (s.p : ℤ) else if k = 2 * s.p then (c : ℤ)
      else s.ed k := by
    intro k
    rw [hed4]
    simp only [Function.update_apply]
  have hmark_odd : ∀ k, edm (2 * k + 1) = ed4 (2 * k + 1) := by
    intro k
    rw [hedm]
    exact mark_other _ _ _ (fun r hr h9 => by omega)
  have hmark_even : ∀ w, w ∉ stk2 → edm (2 * w) = ed4 (2 * w) := by
    intro w hw
    rw [hedm]
    refine mark_other _ _ _ (fun r hr h9 => hw ?_)
    rw [show w = r from by omega]
    exact hr
  have hmarked : ∀ r ∈ stk2, edm (2 * r) = -1 := by
    intro r hr
    rw [hedm]
    exact mark_mem _ _ _ hr
  have ho3notin : o3 ∉ stk2 := by
    rw [ho3]
    exact hlive_notin t hjt le_rfl
  have hsval : ∀ e, j ≤ e → e < t →
      edm (2 * IterF s up e) = ((IterF s up (e + 1) : ℕ) : ℤ) := by
    intro e he1 he2
    rw [hmark_even _ (hlive_notin e he1 (by omega)), hed4_at]
    have hne1 : 2 * IterF s up e ≠ 2 * o3 := by
      rw [ho3]
      intro h9
      have h10 : IterF s up e = IterF s up t := by omega
      have h11 := hinj (show e < s.p from by omega)
        (show t < s.p from by omega) h10
      omega
    rw [if_neg hne1, if_neg (by omega), if_neg (by omega),
      if_neg (show 2 * IterF s up e ≠ 2 * s.p from by
        have h9 := hoe_lt e
        omega)]
    rw [ed_even_eq s hwf (hoe_lt e)]
    rfl
  have hsval_t : edm (2 * o3) = (s.p : ℤ) := by
    rw [hmark_even _ ho3notin, hed4_at, if_pos rfl]
  have hpval : ∀ e, j < e → e ≤ t →
      edm (2 * IterF s up e + 1) = ((IterF s up (e - 1) : ℕ) : ℤ) := by
    intro e he1 he2
    rw [hmark_odd, hed4_at]
    have hne1 : 2 * IterF s up e + 1 ≠ 2 * c + 1 := by
      rw [hc]
      intro h9
      have h10 : IterF s up e = IterF s up j := by omega
      have h11 := hinj (show e < s.p from by omega)
        (show j < s.p from by omega) h10
      omega
    rw [if_neg (by omega),
      if_neg (show 2 * IterF s up e + 1 ≠ 2 * s.p + 1 from by
        have h9 := hoe_lt e
        omega),
      if_neg hne1, if_neg (by omega)]
    rw [ed_odd_eq s hwf (hoe_lt e)]
    have h9 := edP_IterF s hwf hupp (e - 1)
    rw [show e - 1 + 1 = e from by omega] at h9
    rw [h9]
  have hpval_j : edm (2 * c + 1) = (s.p : ℤ) := by
    rw [hmark_odd, hed4_at, if_neg (by omega),
      if_neg (show 2 * c + 1 ≠ 2 * s.p + 1 from by omega), if_pos rfl]
  have hnew_s : edm (2 * s.p) = (c : ℤ) := by
    rw [hmark_even _ hp_notin, hed4_at,
      if_neg (show 2 * s.p ≠ 2 * o3 from by omega), if_neg (by omega),
      if_neg (by omega), if_pos rfl]
  have hnew_p : edm (2 * s.p + 1) = (o3 : ℤ) := by
    rw [hmark_odd, hed4_at, if_neg (by omega), if_pos rfl]
  have hLmem : ∀ w, w ∈ (Finset.Icc j t).image (fun e => IterF s up e) ∪
      {s.p} ↔ (∃ e, j ≤ e ∧ e ≤ t ∧ IterF s up e = w) ∨ w = s.p := by
    intro w
    rw [Finset.mem_union, Finset.mem_singleton, Finset.mem_image]
    constructor
    · rintro (⟨e, he, hew⟩ | h9)
      · rw [Finset.mem_Icc] at he
        exact Or.inl ⟨e, he.1, he.2, hew⟩
      · exact Or.inr h9
    · rintro (⟨e, he1, he2, hew⟩ | h9)
      · exact Or.inl ⟨e, Finset.mem_Icc.mpr ⟨he1, he2⟩, hew⟩
      · exact Or.inr h9
  refine compactLoop_adjacency _ _ _ _
    ((Finset.Icc j t).image (fun e => IterF s up e) ∪ {s.p}) hstknd hmarked
    ?_ ?_ ?_ ?_ ?_ v hv
  · intro w hw
    rcases (hLmem w).mp hw with ⟨e, _, _, hew⟩ | rfl
    · rw [← hew]
      have h9 := hoe_lt e
      omega
    · omega
  · intro w hw
    by_cases hwp : w = s.p
    · exact Or.inl ((hLmem w).mpr (Or.inr hwp))
    · obtain ⟨e, hep, hew⟩ := IterF_surj s hwf hupp (show w < s.p from by omega)
      rcases Nat.lt_or_ge e j with h9 | h9
      · exact Or.inr ((hstkmem w).mpr ⟨e, Or.inl h9, hew⟩)
      · rcases le_or_lt e t with h10 | h10
        · exact Or.inl ((hLmem w).mpr (Or.inl ⟨e, h9, h10, hew⟩))
        · exact Or.inr ((hstkmem w).mpr ⟨e, Or.inr ⟨h10, by omega⟩, hew⟩)
  · intro w hw hwstk
    rcases (hLmem w).mp hw with ⟨e, he1, he2, hew⟩ | rfl
    · obtain ⟨e2, he2', hee⟩ := (hstkmem w).mp hwstk
      have h9 := hinj (show e2 < s.p from by omega)
        (show e < s.p from by omega) (hee.trans hew.symm)
      omega
    · exact hp_notin hwstk
  · exact ⟨s.p, (hLmem s.p).mpr (Or.inr rfl)⟩
  · intro w hw
    rcases (hLmem w).mp hw with ⟨e, hej, het, rfl⟩ | rfl
    · refine ⟨?_, ?_, ?_, ?_, ?_, ?_, ?_, ?_⟩
      · by_cases he : e = t
        · subst he
          rw [← ho3, hsval_t]
          exact Int.natCast_nonneg _
        · rw [hsval e hej (by omega)]
          exact Int.natCast_nonneg _
      · by_cases he : e = j
        · subst he
          rw [← hc, hpval_j]
          exact Int.natCast_nonneg _
        · rw [hpval e (by omega) het]
          exact Int.natCast_nonneg _
      · by_cases he : e = t
        · subst he
          rw [← ho3, hsval_t, Int.toNat_natCast]
          exact (hLmem s.p).mpr (Or.inr rfl)
        · rw [hsval e hej (by omega), Int.toNat_natCast]
          exact (hLmem _).mpr (Or.inl ⟨e + 1, by omega, by omega, rfl⟩)
      · by_cases he : e = j
        · subst he
          rw [← hc, hpval_j, Int.toNat_natCast]
          exact (hLmem s.p).mpr (Or.inr rfl)
        · rw [hpval e (by omega) het, Int.toNat_natCast]
          exact (hLmem _).mpr (Or.inl ⟨e - 1, by omega, by omega, rfl⟩)
      · by_cases he : e = t
        · subst he
          rw [← ho3, hsval_t, Int.toNat_natCast]
          omega
        · rw [hsval e hej (by omega), Int.toNat_natCast]
          intro h9
          have h10 := hinj (show e + 1 < s.p from by omega)
            (show e < s.p from by omega) h9
          omega
      · by_cases he : e = j
        · subst he
          rw [← hc, hpval_j, Int.toNat_natCast]
          omega
        · rw [hpval e (by omega) het, Int.toNat_natCast]
          intro h9
          have h10 := hinj (show e - 1 < s.p from by omega)
            (show e < s.p from by omega) h9
          omega
      · by_cases he : e = t
        · subst he
          rw [← ho3, hsval_t, Int.toNat_natCast, hnew_p, ho3]
        · rw [hsval e hej (by omega), Int.toNat_natCast,
            hpval (e + 1) (by omega) (by omega),
            show e + 1 - 1 = e from by omega]
      · by_cases he : e = j
        · subst he
          rw [← hc, hpval_j, Int.toNat_natCast, hnew_s, hc]
        · rw [hpval e (by omega) het, Int.toNat_natCast,
            hsval (e - 1) (by omega) (by omega),
            show e - 1 + 1 = e from by omega]
    · refine ⟨?_, ?_, ?_, ?_, ?_, ?_, ?_, ?_⟩
      · rw [hnew_s]
        exact Int.natCast_nonneg _
      · rw [hnew_p]
        exact Int.natCast_nonneg _
      · rw [hnew_s, Int.toNat_natCast]
        exact (hLmem c).mpr (Or.inl ⟨j, le_rfl, hjt, hc.symm⟩)
      · rw [hnew_p, Int.toNat_natCast]
        exact (hLmem o3).mpr (Or.inl ⟨t, hjt, le_rfl, ho3.symm⟩)
      · rw [hnew_s, Int.toNat_natCast]
        omega
      · rw [hnew_p, Int.toNat_natCast]
        omega
      · rw [hnew_s, Int.toNat_natCast, hpval_j]
      · rw [hnew_p, Int.toNat_natCast, hsval_t]

/-- Phases 5-6 starting from the phase-3 interpolation case (phase 3 appended
the new vertex `p` with succ `IterF j`, and `cp = p`): wiring the second new
boundary vertex and compacting restores consistent in-range adjacency. -/
theorem planeFinishB_adjacency (s : Cell) (pts0 : ℕ → ℚ) {up j t : ℕ}
    (l2 u3 : ℚ) (hwf : Wf s) (hupp : up < s.p) (hj1 : 1 ≤ j) (hjt : j ≤ t)
    (htp : t ≤ s.p - 1) (hu3 : ¬ u3 > tolerance) :
    AdjOK (planeFinish
      ⟨s.p + 1, pts0,
        Function.update (Function.update s.ed (2 * s.p) (IterF s up j : ℤ))
          (2 * IterF s up j + 1) (s.p : ℤ)⟩
      s.p (predList s up (t + 1) (s.p - 1 - t) ++ sweepList s up j) l2
      (IterF s up t) u3) := by
  have hp1 : 1 ≤ s.p := hwf.1
  have hoe_lt : ∀ e, IterF s up e < s.p := IterF_lt s hwf hupp
  have hinj : ∀ {a b : ℕ}, a < s.p → b < s.p →
      IterF s up a = IterF s up b → a = b :=
    fun ha hb hab => IterF_inj s hwf hupp ha hb hab
  intro v hv
  simp only [planeFinish] at hv ⊢
  rw [if_neg hu3] at hv ⊢
  dsimp only at hv ⊢
  have hstkmem : ∀ w, w ∈ predList s up (t + 1) (s.p - 1 - t) ++
      sweepList s up j ↔
      ∃ e, (e < j ∨ (t < e ∧ e ≤ s.p - 1)) ∧ IterF s up e = w := by
    intro w
    rw [List.mem_append, mem_predList, mem_sweepList]
    constructor
    · rintro (⟨i, hi, hiw⟩ | ⟨e, he, hew⟩)
      · exact ⟨t + 1 + i, Or.inr ⟨by omega, by omega⟩, hiw⟩
      · exact ⟨e, Or.inl he, hew⟩
    · rintro ⟨e, he | ⟨he1, he2⟩, hew⟩
      · exact Or.inr ⟨e, he, hew⟩
      · refine Or.inl ⟨e - (t + 1), by omega, ?_⟩
        rw [show t + 1 + (e - (t + 1)) = e from by omega]
        exact hew
  have hstknd : (predList s up (t + 1) (s.p - 1 - t) ++
      sweepList s up j).Nodup := by
    refine List.Nodup.append
      (predList_nodup s hwf hupp (t + 1) (s.p - 1 - t) (by omega))
      (sweepList_nodup s hwf hupp j (by omega)) ?_
    intro w hw1 hw2
    rw [mem_predList] at hw1
    rw [mem_sweepList] at hw2
    obtain ⟨i, hi, hiw⟩ := hw1
    obtain ⟨e, he, hew⟩ := hw2
    have h9 := hinj (show t + 1 + i < s.p from by omega)
      (show e < s.p from by omega) (hiw.trans hew.symm)
    omega
  have hstkp : ∀ w ∈ predList s up (t + 1) (s.p - 1 - t) ++
      sweepList s up j, w < s.p := by
    intro w hw
    obtain ⟨e, _, hew⟩ := (hstkmem w).mp hw
    rw [← hew]
    exact hoe_lt e
  have hlive_notin : ∀ e, j ≤ e → e ≤ t →
      IterF s up e ∉ predList s up (t + 1) (s.p - 1 - t) ++
        sweepList s up j := by
    intro e he1 he2 hmem
    obtain ⟨e2, he2', hee⟩ := (hstkmem _).mp hmem
    have h9 := hinj (show e2 < s.p from by omega)
      (show e < s.p from by omega) hee
    omega
  have hp_notin : s.p ∉ predList s up (t + 1) (s.p - 1 - t) ++
      sweepList s up j := by
    intro hmem
    have h9 := hstkp _ hmem
    omega
  have hp1_notin : s.p + 1 ∉ predList s up (t + 1) (s.p - 1 - t) ++
      sweepList s up j := by
    intro hmem
    have h9 := hstkp _ hmem
    omega
  set stk2 := predList s up (t + 1) (s.p - 1 - t) ++ sweepList s up j
    with hstk2
  set c := IterF s up j with hc
  set o3 := IterF s up t with ho3
  have hcp : c < s.p := by
    rw [hc]
    exact hoe_lt j
  have ho3p : o3 < s.p := by
    rw [ho3]
    exact hoe_lt t
  set ed4 := Function.update (Function.update (Function.update
    (Function.update (Function.update (Function.update s.ed (2 * s.p) (c : ℤ))
      (2 * c + 1) (s.p : ℤ)) (2 * (s.p + 1)) (s.p : ℤ)) (2 * s.p + 1)
      ((s.p + 1 : ℕ) : ℤ)) (2 * (s.p + 1) + 1) (o3 : ℤ)) (2 * o3)
      ((s.p + 1 : ℕ) : ℤ) with hed4
  set edm := stk2.foldl (fun e v => Function.update e (2 * v) (-1 : ℤ)) ed4
    with hedm
  have hed4_at : ∀ k, ed4 k =
      if k = 2 * o3 then ((s.p + 1 : ℕ) : ℤ)
      else if k = 2 * (s.p + 1) + 1 then (o3 : ℤ)
      else if k = 2 * s.p + 1 then ((s.p + 1 : ℕ) : ℤ)
      else if k = 2 * (s.p + 1) then (s.p : ℤ)
      else if k = 2 * c + 1 then (s.p : ℤ)
      else if k = 2 * s.p then (c : ℤ)
      else s.ed k := by
    intro k
    rw [hed4]
    simp only [Function.update_apply]
  have hmark_odd : ∀ k, edm (2 * k + 1) = ed4 (2 * k + 1) := by
    intro k
    rw [hedm]
    exact mark_other _ _ _ (fun r hr h9 => by omega)
  have hmark_even : ∀ w, w ∉ stk2 → edm (2 * w) = ed4 (2 * w) := by
    intro w hw
    rw [hedm]
    refine mark_other _ _ _ (fun r hr h9 => hw ?_)
    rw [show w = r from by omega]
    exact hr
  have hmarked : ∀ r ∈ stk2, edm (2 * r) = -1 := by
    intro r hr
    rw [hedm]
    exact mark_mem _ _ _ hr
  have ho3notin : o3 ∉ stk2 := by
    rw [ho3]
    exact hlive_notin t hjt le_rfl
  have hsval : ∀ e, j ≤ e → e < t →
      edm (2 * IterF s up e) = ((IterF s up (e + 1) : ℕ) : ℤ) := by
    intro e he1 he2
    rw [hmark_even _ (hlive_notin e he1 (by omega)), hed4_at]
    have hne1 : 2 * IterF s up e ≠ 2 * o3 := by
      rw [ho3]
      intro h9
      have h10 : IterF s up e = IterF s up t := by omega
      have h11 := hinj (show e < s.p from by omega)
        (show t < s.p from by omega) h10
      omega
    have h9 := hoe_lt e
    rw [if_neg hne1, if_neg (by omega), if_neg (by omega),
      if_neg (show 2 * IterF s up e ≠ 2 * (s.p + 1) from by omega),
      if_neg (by omega),
      if_neg (show 2 * IterF s up e ≠ 2 * s.p from by omega)]
    rw [ed_even_eq s hwf (hoe_lt e)]
    rfl
  have hsval_t : edm (2 * o3) = ((s.p + 1 : ℕ) : ℤ) := by
    rw [hmark_even _ ho3notin, hed4_at, if_pos rfl]
  have hpval : ∀ e, j < e → e ≤ t →
      edm (2 * IterF s up e + 1) = ((IterF s up (e - 1) : ℕ) : ℤ) := by
    intro e he1 he2
    rw [hmark_odd, hed4_at]
    have hne1 : 2 * IterF s up e + 1 ≠ 2 * c + 1 := by
      rw [hc]
      intro h9
      have h10 : IterF s up e = IterF s up j := by omega
      have h11 := hinj (show e < s.p from by omega)
        (show j < s.p from by omega) h10
      omega
    have h9 := hoe_lt e
    rw [if_neg (by omega),
      if_neg (show 2 * IterF s up e + 1 ≠ 2 * (s.p + 1) + 1 from by omega),
      if_neg (show 2 * IterF s up e + 1 ≠ 2 * s.p + 1 from by omega),
      if_neg (by omega), if_neg hne1, if_neg (by omega)]
    rw [ed_odd_eq s hwf (hoe_lt e)]
    have h10 := edP_IterF s hwf hupp (e - 1)
    rw [show e - 1 + 1 = e from by omega] at h10
    rw [h10]
  have hpval_j : edm (2 * c + 1) = (s.p : ℤ) := by
    rw [hmark_odd, hed4_at, if_neg (by omega),
      if_neg (show 2 * c + 1 ≠ 2 * (s.p + 1) + 1 from by omega),
      if_neg (show 2 * c + 1 ≠ 2 * s.p + 1 from by omega), if_neg (by omega),
      if_pos rfl]
  have hB_s : edm (2 * s.p) = (c : ℤ) := by
    rw [hmark_even _ hp_notin, hed4_at,
      if_neg (show 2 * s.p ≠ 2 * o3 from by omega), if_neg (by omega),
      if_neg (by omega), if_neg (show 2 * s.p ≠ 2 * (s.p + 1) from by omega),
      if_neg (by omega), if_pos rfl]
  have hB_sp1 : edm (2 * s.p + 1) = ((s.p + 1 : ℕ) : ℤ) := by
    rw [hmark_odd, hed4_at, if_neg (by omega),
      if_neg (show 2 * s.p + 1 ≠ 2 * (s.p + 1) + 1 from by omega),
      if_pos rfl]
  have hB_t1 : edm (2 * (s.p + 1)) = (s.p : ℤ) := by
    rw [hmark_even _ hp1_notin, hed4_at,
      if_neg (show 2 * (s.p + 1) ≠ 2 * o3 from by omega),
      if_neg (by omega),
      if_neg (show 2 * (s.p + 1) ≠ 2 * s.p + 1 from by omega),
      if_pos rfl]
  have hB_t2 : edm (2 * (s.p + 1) + 1) = (o3 : ℤ) := by
    rw [hmark_odd, hed4_at, if_neg (by omega), if_pos rfl]
  have hLmem : ∀ w, w ∈ (Finset.Icc j t).image (fun e => IterF s up e) ∪
      {s.p, s.p + 1} ↔
      (∃ e, j ≤ e ∧ e ≤ t ∧ IterF s up e = w) ∨ w = s.p ∨ w = s.p + 1 := by
    intro w
    rw [Finset.mem_union, Finset.mem_insert, Finset.mem_singleton,
      Finset.mem_image]
    constructor
    · rintro (⟨e, he, hew⟩ | h9 | h9)
      · rw [Finset.mem_Icc] at he
        exact Or.inl ⟨e, he.1, he.2, hew⟩
      · exact Or.inr (Or.inl h9)
      · exact Or.inr (Or.inr h9)
    · rintro (⟨e, he1, he2, hew⟩ | h9 | h9)
      · exact Or.inl ⟨e, Finset.mem_Icc.mpr ⟨he1, he2⟩, hew⟩
      · exact Or.inr (Or.inl h9)
      · exact Or.inr (Or.inr h9)
  refine compactLoop_adjacency _ _ _ _
    ((Finset.Icc j t).image (fun e => IterF s up e) ∪ {s.p, s.p + 1}) hstknd
    hmarked ?_ ?_ ?_ ?_ ?_ v hv
  · intro w hw
    rcases (hLmem w).mp hw with ⟨e, _, _, hew⟩ | rfl | rfl
    · rw [← hew]
      have h9 := hoe_lt e
      omega
    · omega
    · omega
  · intro w hw
    by_cases hwp1 : w = s.p + 1
    · exact Or.inl ((hLmem w).mpr (Or.inr (Or.inr hwp1)))
    · by_cases hwp : w = s.p
      · exact Or.inl ((hLmem w).mpr (Or.inr (Or.inl hwp)))
      · obtain ⟨e, hep, hew⟩ := IterF_surj s hwf hupp
          (show w < s.p from by omega)
        rcases Nat.lt_or_ge e j with h9 | h9
        · exact Or.inr ((hstkmem w).mpr ⟨e, Or.inl h9, hew⟩)
        · rcases le_or_lt e t with h10 | h10
          · exact Or.inl ((hLmem w).mpr (Or.inl ⟨e, h9, h10, hew⟩))
          · exact Or.inr ((hstkmem w).mpr ⟨e, Or.inr ⟨h10, by omega⟩, hew⟩)
  · intro w hw hwstk
    rcases (hLmem w).mp hw with ⟨e, he1, he2, hew⟩ | rfl | rfl
    · obtain ⟨e2, he2', hee⟩ := (hstkmem w).mp hwstk
      have h9 := hinj (show e2 < s.p from by omega)
        (show e < s.p from by omega) (hee.trans hew.symm)
      omega
    · exact hp_notin hwstk
    · exact hp1_notin hwstk
  · exact ⟨s.p, (hLmem s.p).mpr (Or.inr (Or.inl rfl))⟩
  · intro w hw
    rcases (hLmem w).mp hw with ⟨e, hej, het, rfl⟩ | rfl | rfl
    · refine ⟨?_, ?_, ?_, ?_, ?_, ?_, ?_, ?_⟩
      · by_cases he : e = t
        · subst he
          rw [← ho3, hsval_t]
          exact Int.natCast_nonneg _
        · rw [hsval e hej (by omega)]
          exact Int.natCast_nonneg _
      · by_cases he : e = j
        · subst he
          rw [← hc, hpval_j]
          exact Int.natCast_nonneg _
        · rw [hpval e (by omega) het]
          exact Int.natCast_nonneg _
      · by_cases he : e = t
        · subst he
          rw [← ho3, hsval_t, Int.toNat_natCast]
          exact (hLmem (s.p + 1)).mpr (Or.inr (Or.inr rfl))
        · rw [hsval e hej (by omega), Int.toNat_natCast]
          exact (hLmem _).mpr (Or.inl ⟨e + 1, by omega, by omega, rfl⟩)
      · by_cases he : e = j
        · subst he
          rw [← hc, hpval_j, Int.toNat_natCast]
          exact (hLmem s.p).mpr (Or.inr (Or.inl rfl))
        · rw [hpval e (by omega) het, Int.toNat_natCast]
          exact (hLmem _).mpr (Or.inl ⟨e - 1, by omega, by omega, rfl⟩)
      · by_cases he : e = t
        · subst he
          rw [← ho3, hsval_t, Int.toNat_natCast]
          omega
        · rw [hsval e hej (by omega), Int.toNat_natCast]
          intro h9
          have h10 := hinj (show e + 1 < s.p from by omega)
            (show e < s.p from by omega) h9
          omega
      · by_cases he : e = j
        · subst he
          rw [← hc, hpval_j, Int.toNat_natCast]
          omega
        · rw [hpval e (by omega) het, Int.toNat_natCast]
          intro h9
          have h10 := hinj (show e - 1 < s.p from by omega)
            (show e < s.p from by omega) h9
          omega
      · by_cases he : e = t
        · subst he
          rw [← ho3, hsval_t, Int.toNat_natCast, hB_t2]
        · rw [hsval e hej (by omega), Int.toNat_natCast,
            hpval (e + 1) (by omega) (by omega),
            show e + 1 - 1 = e from by omega]
      · by_cases he : e = j
        · subst he
          rw [← hc, hpval_j, Int.toNat_natCast, hB_s]
        · rw [hpval e (by omega) het, Int.toNat_natCast,
            hsval (e - 1) (by omega) (by omega),
            show e - 1 + 1 = e from by omega]
    · refine ⟨?_, ?_, ?_, ?_, ?_, ?_, ?_, ?_⟩
      · rw [hB_s]
        exact Int.natCast_nonneg _
      · rw [hB_sp1]
        exact Int.natCast_nonneg _
      · rw [hB_s, Int.toNat_natCast]
        exact (hLmem c).mpr (Or.inl ⟨j, le_rfl, hjt, hc.symm⟩)
      · rw [hB_sp1, Int.toNat_natCast]
        exact (hLmem (s.p + 1)).mpr (Or.inr (Or.inr rfl))
      · rw [hB_s, Int.toNat_natCast]
        omega
      · rw [hB_sp1, Int.toNat_natCast]
        omega
      · rw [hB_s, Int.toNat_natCast, hpval_j]
      · rw [hB_sp1, Int.toNat_natCast, hB_t1]
    · refine ⟨?_, ?_, ?_, ?_, ?_, ?_, ?_, ?_⟩
      · rw [hB_t1]
        exact Int.natCast_nonneg _
      · rw [hB_t2]
        exact Int.natCast_nonneg _
      · rw [hB_t1, Int.toNat_natCast]
        exact (hLmem s.p).mpr (Or.inr (Or.inl rfl))
      · rw [hB_t2, Int.toNat_natCast]
        exact (hLmem o3).mpr (Or.inl ⟨t, hjt, le_rfl, ho3.symm⟩)
      · rw [hB_t1, Int.toNat_natCast]
        omega
      · rw [hB_t2, Int.toNat_natCast]
        omega
      · rw [hB_t1, Int.toNat_natCast, hB_sp1]
      · rw [hB_t2, Int.toNat_natCast, hsval_t]

/-- Phase 3 either keeps the cell (on-plane stop vertex) or appends one
interpolated vertex whose coordinate writes stay at or above index `2p`. -/
theorem phase3_cases (s : Cell) (l : ℚ) (up2 : ℕ) (u2 : ℚ) :
    (u2 > -tolerance ∧ phase3 s l up2 u2 = (s, up2)) ∨
    (¬ u2 > -tolerance ∧ ∃ pts0 : ℕ → ℚ,
      (∀ k, k < 2 * s.p → pts0 k = s.pts k) ∧
      phase3 s l up2 u2 =
        (⟨s.p + 1, pts0,
          Function.update (Function.update s.ed (2 * s.p) (up2 : ℤ))
            (2 * up2 + 1) (s.p : ℤ)⟩, s.p)) := by
  by_cases hc : u2 > -tolerance
  · refine Or.inl ⟨hc, ?_⟩
    simp only [phase3]
    rw [if_pos hc]
  · refine Or.inr ⟨hc, ?_⟩
    refine ⟨Function.update (Function.update s.pts (2 * s.p)
        ((s.pts (2 * s.edP up2) * u2 - s.pts (2 * up2) * l) * (1 / (u2 - l))))
        (2 * s.p + 1)
        ((s.pts (2 * s.edP up2 + 1) * u2 - s.pts (2 * up2 + 1) * l) *
          (1 / (u2 - l))), ?_, ?_⟩
    · intro k hk
      rw [Function.update_noteq (by omega), Function.update_noteq (by omega)]
    · simp only [phase3]
      rw [if_neg hc]

/-- C6 main engine, for cells with at least two vertices: every `plane` call
that returns `true` leaves the integer adjacency entries in range and mutually
inverse on all of `[0, p)`. -/
theorem plane_true_AdjOK (fuel : ℕ) (s : Cell) (x y rsq : ℚ) {s2 : Cell}
    (hwf : Wf s) (hp2 : 2 ≤ s.p)
    (h : plane fuel s x y rsq = some (true, s2)) : AdjOK s2 := by
  simp only [plane] at h
  cases hph : phase1 s x y rsq fuel with
  | intact =>
    rw [hph] at h
    simp only [planeGo1] at h
    have h2 := Option.some.inj h
    have h3 : s = s2 := congrArg Prod.snd h2
    rw [← h3]
    intro v hv
    have h4 := hwf.2.1 v hv
    have h5 := hwf.2.2.1 v hv
    refine ⟨h4.1, h4.2.1, h4.2.2.1, h4.2.2.2, ?_, ?_⟩
    · have h6 : s.ed (2 * s.edS v + 1) = (v : ℤ) := by
        rw [ed_odd_eq s hwf (edS_lt s hwf hv), h5.2]
      exact h6
    · have h6 : s.ed (2 * s.edP v) = (v : ℤ) := by
        rw [ed_even_eq s hwf (edP_lt s hwf hv), h5.1]
      exact h6
  | stuck =>
    rw [hph] at h
    simp only [planeGo1] at h
    exact Option.noConfusion h
  | found up u =>
    rw [hph] at h
    simp only [planeGo1] at h
    obtain ⟨hupp, hu, huout⟩ := phase1_found s x y rsq hwf hph
    have hinj : ∀ {a b : ℕ}, a < s.p → b < s.p →
        IterF s up a = IterF s up b → a = b :=
      fun ha hb hab => IterF_inj s hwf hupp ha hb hab
    have hoe_lt : ∀ e, IterF s up e < s.p := IterF_lt s hwf hupp
    cases hsw : sweepSucc s x y rsq up fuel [up] u (s.edS up)
        (s.pos x y rsq (s.edS up)) with
    | total =>
      rw [hsw] at h
      simp only [planeGo2] at h
      have h2 := Option.some.inj h
      exact Bool.noConfusion (congrArg Prod.fst h2)
    | stuck =>
      rw [hsw] at h
      simp only [planeGo2] at h
      exact Option.noConfusion h
    | stop stk l up2 u2 =>
      rw [hsw] at h
      simp only [planeGo2, planeRest] at h
      obtain ⟨j, hj1, hjp, hout2, hstop2, hstk, hup2, hu2⟩ :=
        sweepSucc_stop_extract s x y rsq hwf hupp hp2 hsw
      subst hstk hup2 hu2
      have hjplt : j < s.p := by omega
      have hstart : s.edP up = IterF s up (s.p - 1) := by
        have h9 := edP_IterF s hwf hupp (s.p - 1)
        rw [show s.p - 1 + 1 = s.p from by omega] at h9
        rw [IterF_p s hwf hupp] at h9
        exact h9
      have hpredag : ∀ m, j + 1 ≤ m → m ≤ s.p - 1 →
          s.edP (IterF s up m) = IterF s up (m - 1) := by
        intro m hm1 hm2
        have h9 := edP_IterF s hwf hupp (m - 1)
        rw [show m - 1 + 1 = m from by omega] at h9
        exact h9
      rcases phase3_cases s l (IterF s up j)
          (s.pos x y rsq (IterF s up j)) with ⟨hc3, hph3⟩ |
          ⟨hc3, pts0, hagree, hph3⟩
      · rw [hph3] at h
        dsimp only at h
        simp only [planeAfter3] at h
        rw [hstart] at h
        cases hsp : sweepPred s x y rsq (IterF s up j) fuel
            (sweepList s up j) u (IterF s up (s.p - 1))
            (s.pos x y rsq (IterF s up (s.p - 1))) with
        | stuck =>
          rw [hsp] at h
          exact Option.noConfusion h
        | stop stk2 ll2 up3 u3 =>
          rw [hsp] at h
          obtain ⟨t, hjt, htp, hout4, hstop4, hstk2, hup3, hu3v⟩ :=
            sweepPred_stop_extract s s x y rsq hwf (sweepList s up j) hupp
              hj1 hjp hpredag hstop2 hsp
          subst hstk2 hup3 hu3v
          have h2 := Option.some.inj h
          have hs2 : planeFinish s (IterF s up j)
              (predList s up (t + 1) (s.p - 1 - t) ++ sweepList s up j) ll2
              (IterF s up t) (s.pos x y rsq (IterF s up t)) = s2 :=
            congrArg Prod.snd h2
          rw [← hs2]
          exact planeFinishA_adjacency s ll2
            (s.pos x y rsq (IterF s up t)) hwf hupp hj1 hjt htp hstop4
      · rw [hph3] at h
        dsimp only at h
        simp only [planeAfter3] at h
        have hupne : (2 : ℕ) * up + 1 ≠ 2 * IterF s up j + 1 := by
          intro h9
          have h10 : IterF s up 0 = IterF s up j := by
            show up = IterF s up j
            omega
          have h11 := hinj (show 0 < s.p from by omega) hjplt h10
          omega
        have hedPB : (⟨s.p + 1, pts0,
            Function.update (Function.update s.ed (2 * s.p)
              (IterF s up j : ℤ)) (2 * IterF s up j + 1) (s.p : ℤ)⟩ :
              Cell).edP up = IterF s up (s.p - 1) := by
          show (Function.update (Function.update s.ed (2 * s.p)
            (IterF s up j : ℤ)) (2 * IterF s up j + 1) (s.p : ℤ)
            (2 * up + 1)).toNat = IterF s up (s.p - 1)
          rw [Function.update_noteq hupne,
            Function.update_noteq (by omega)]
          exact hstart
        have hposB : ∀ w, w < s.p → (⟨s.p + 1, pts0,
            Function.update (Function.update s.ed (2 * s.p)
              (IterF s up j : ℤ)) (2 * IterF s up j + 1) (s.p : ℤ)⟩ :
              Cell).pos x y rsq w = s.pos x y rsq w := by
          intro w hw
          simp only [pos]
          rw [hagree (2 * w) (by omega), hagree (2 * w + 1) (by omega)]
        have hpredagB : ∀ m, j + 1 ≤ m → m ≤ s.p - 1 →
            (⟨s.p + 1, pts0,
              Function.update (Function.update s.ed (2 * s.p)
                (IterF s up j : ℤ)) (2 * IterF s up j + 1) (s.p : ℤ)⟩ :
                Cell).edP (IterF s up m) = IterF s up (m - 1) := by
          intro m hm1 hm2
          show (Function.update (Function.update s.ed (2 * s.p)
            (IterF s up j : ℤ)) (2 * IterF s up j + 1) (s.p : ℤ)
            (2 * IterF s up m + 1)).toNat = IterF s up (m - 1)
          have hne1 : 2 * IterF s up m + 1 ≠ 2 * IterF s up j + 1 := by
            intro h9
            have h10 : IterF s up m = IterF s up j := by omega
            have h11 := hinj (show m < s.p from by omega) hjplt h10
            omega
          rw [Function.update_noteq hne1, Function.update_noteq (by omega)]
          exact hpredag m hm1 hm2
        rw [hedPB] at h
        cases hsp : sweepPred (⟨s.p + 1, pts0,
            Function.update (Function.update s.ed (2 * s.p)
              (IterF s up j : ℤ)) (2 * IterF s up j + 1) (s.p : ℤ)⟩ : Cell)
            x y rsq (IterF s up j) fuel (sweepList s up j) u
            (IterF s up (s.p - 1))
            ((⟨s.p + 1, pts0,
              Function.update (Function.update s.ed (2 * s.p)
                (IterF s up j : ℤ)) (2 * IterF s up j + 1) (s.p : ℤ)⟩ :
                Cell).pos x y rsq (IterF s up (s.p - 1))) with
        | stuck =>
          rw [hsp] at h
          exact Option.noConfusion h
        | stop stk2 ll2 up3 u3 =>
          rw [hsp] at h
          have hstopjB : ¬ tolerance < (⟨s.p + 1, pts0,
              Function.update (Function.update s.ed (2 * s.p)
                (IterF s up j : ℤ)) (2 * IterF s up j + 1) (s.p : ℤ)⟩ :
                Cell).pos x y rsq (IterF s up j) := by
            rw [hposB (IterF s up j) (hoe_lt j)]
            exact hstop2
          obtain ⟨t, hjt, htp, hout4, hstop4, hstk2, hup3, hu3v⟩ :=
            sweepPred_stop_extract s (⟨s.p + 1, pts0,
              Function.update (Function.update s.ed (2 * s.p)
                (IterF s up j : ℤ)) (2 * IterF s up j + 1) (s.p : ℤ)⟩ : Cell)
              x y rsq hwf (sweepList s up j) hupp hj1 hjp hpredagB hstopjB hsp
          subst hstk2 hup3 hu3v
          have h2 := Option.some.inj h
          have hs2 : planeFinish (⟨s.p + 1, pts0,
              Function.update (Function.update s.ed (2 * s.p)
                (IterF s up j : ℤ)) (2 * IterF s up j + 1) (s.p : ℤ)⟩ : Cell)
              s.p (predList s up (t + 1) (s.p - 1 - t) ++ sweepList s up j)
              ll2 (IterF s up t) ((⟨s.p + 1, pts0,
                Function.update (Function.update s.ed (2 * s.p)
                  (IterF s up j : ℤ)) (2 * IterF s up j + 1) (s.p : ℤ)⟩ :
                  Cell).pos x y rsq (IterF s up t)) = s2 :=
            congrArg Prod.snd h2
          rw [← hs2]
          exact planeFinishB_adjacency s pts0 ll2 _ hwf hupp hj1 hjt htp
            hstop4

/-- The phase 5-6 computation of the degenerate one-vertex boundary cut: the
single vertex sits exactly on the plane, is pushed, deleted and replaced by
the interpolated vertex, which the compaction moves back into slot 0 as a
self-loop. -/
theorem planeFinish_p1 (s : Cell) (l0 u0 : ℚ) (hp1 : s.p = 1)
    (hu3 : ¬ u0 > tolerance) :
    (planeFinish s 0 [0] l0 0 u0).p = 1 ∧
    (planeFinish s 0 [0] l0 0 u0).ed 0 = 0 ∧
    (planeFinish s 0 [0] l0 0 u0).ed 1 = 0 := by
  simp only [planeFinish]
  rw [if_neg hu3]
  dsimp only
  rw [hp1]
  simp only [List.foldl_cons, List.foldl_nil]
  simp only [compactLoop, findLive]
  simp only [Function.update_apply]
  norm_num

/-- C6 engine for the degenerate one-vertex cell: a `true` return is either
the untouched cell or the boundary cut computed by `planeFinish_p1`; both
satisfy the integer adjacency postcondition. -/
theorem plane_true_AdjOK_p1 (fuel : ℕ) (s : Cell) (x y rsq : ℚ) {s2 : Cell}
    (hwf : Wf s) (hp1 : s.p = 1)
    (h : plane fuel s x y rsq = some (true, s2)) : AdjOK s2 := by
  have h9 := hwf.2.1 0 (by omega)
  norm_num [hp1] at h9
  have hed0 : s.ed 0 = 0 := by omega
  have hed1 : s.ed 1 = 0 := by omega
  have hedS0 : s.edS 0 = 0 := by simp [edS, hed0]
  have hedP0 : s.edP 0 = 0 := by simp [edP, hed1]
  simp only [plane] at h
  by_cases hc1 : s.pos x y rsq 0 < tolerance
  · cases fuel with
    | zero =>
      have hph : phase1 s x y rsq 0 = Scan1.stuck := by
        simp only [phase1]
        rw [if_pos hc1, hedS0, hedP0, if_neg (lt_irrefl _)]
        simp only [scanB]
        rw [if_pos hc1]
      rw [hph] at h
      simp only [planeGo1] at h
      exact Option.noConfusion h
    | succ fuel =>
      have hph : phase1 s x y rsq (fuel + 1) = Scan1.intact := by
        simp only [phase1]
        rw [if_pos hc1, hedS0, hedP0, if_neg (lt_irrefl _)]
        simp only [scanB]
        rw [if_pos hc1, hedP0, if_pos rfl]
      rw [hph] at h
      simp only [planeGo1] at h
      have h2 := Option.some.inj h
      have h3 : s = s2 := congrArg Prod.snd h2
      rw [← h3]
      intro v hv
      rw [hp1] at hv
      have hv0 : v = 0 := by omega
      subst hv0
      norm_num [hed0, hed1, hp1]
  · have hph : phase1 s x y rsq fuel = Scan1.found 0 (s.pos x y rsq 0) := by
      simp only [phase1]
      rw [if_neg hc1]
    rw [hph] at h
    simp only [planeGo1] at h
    rw [hedS0] at h
    by_cases hc2 : s.pos x y rsq 0 > tolerance
    · cases fuel with
      | zero =>
        have hsw : sweepSucc s x y rsq 0 0 [0] (s.pos x y rsq 0) 0
            (s.pos x y rsq 0) = Scan2.stuck := by
          simp only [sweepSucc]
          rw [if_pos hc2]
        rw [hsw] at h
        simp only [planeGo2] at h
        exact Option.noConfusion h
      | succ fuel =>
        have hsw : sweepSucc s x y rsq 0 (fuel + 1) [0] (s.pos x y rsq 0) 0
            (s.pos x y rsq 0) = Scan2.total := by
          simp only [sweepSucc]
          rw [if_pos hc2, hedS0, if_pos rfl]
        rw [hsw] at h
        simp only [planeGo2] at h
        have h2 := Option.some.inj h
        exact Bool.noConfusion (congrArg Prod.fst h2)
    · have hsw : sweepSucc s x y rsq 0 fuel [0] (s.pos x y rsq 0) 0
          (s.pos x y rsq 0) =
          Scan2.stop [0] (s.pos x y rsq 0) 0 (s.pos x y rsq 0) := by
        cases fuel with
        | zero =>
          simp only [sweepSucc]
          rw [if_neg hc2]
        | succ fuel =>
          simp only [sweepSucc]
          rw [if_neg hc2]
      rw [hsw] at h
      simp only [planeGo2, planeRest] at h
      have hc3 : s.pos x y rsq 0 > -tolerance := by
        have h10 := not_lt.mp hc1
        have h11 := tolerance_pos
        linarith
      have hph3 : phase3 s (s.pos x y rsq 0) 0 (s.pos x y rsq 0) =
          (s, 0) := by
        simp only [phase3]
        rw [if_pos hc3]
      rw [hph3] at h
      dsimp only at h
      simp only [planeAfter3] at h
      rw [hedP0] at h
      have hsp : sweepPred s x y rsq 0 fuel [0] (s.pos x y rsq 0) 0
          (s.pos x y rsq 0) =
          Scan4.stop [0] (s.pos x y rsq 0) 0 (s.pos x y rsq 0) := by
        cases fuel with
        | zero =>
          simp only [sweepPred]
          rw [if_neg hc2]
        | succ fuel =>
          simp only [sweepPred]
          rw [if_neg hc2]
      rw [hsp] at h
      have h2 := Option.some.inj h
      have hs2 : planeFinish s 0 [0] (s.pos x y rsq 0) 0
          (s.pos x y rsq 0) = s2 := congrArg Prod.snd h2
      rw [← hs2]
      obtain ⟨hFp, hF0, hF1⟩ :=
        planeFinish_p1 s (s.pos x y rsq 0) (s.pos x y rsq 0) hp1 hc2
      intro v hv
      rw [hFp] at hv
      have hv0 : v = 0 := by omega
      subst hv0
      norm_num [hF0, hF1, hFp]

/-- C6: after every `plane` call that returns `true` on a cell satisfying the
adjacency invariants, every live slot `v < p` has both adjacency entries in
`[0, p)` as integers — so no stale index and no `-1` tombstone remains — and
the successor and predecessor maps are mutually inverse:
`succ(pred(v)) = v` and `pred(succ(v)) = v`. -/
theorem plane_true_adjacency (fuel : ℕ) (s : Cell) (x y rsq : ℚ) (s2 : Cell)
    (hwf : Wf s) (h : plane fuel s x y rsq = some (true, s2)) :
    ∀ v < s2.p,
      0 ≤ s2.ed (2 * v) ∧ s2.ed (2 * v) < (s2.p : ℤ) ∧
      0 ≤ s2.ed (2 * v + 1) ∧ s2.ed (2 * v + 1) < (s2.p : ℤ) ∧
      s2.edS (s2.edP v) = v ∧ s2.edP (s2.edS v) = v := by
  have hA : AdjOK s2 := by
    rcases Nat.lt_or_ge s.p 2 with h9 | h9
    · have hp1 : s.p = 1 := by
        have h10 := hwf.1
        omega
      exact plane_true_AdjOK_p1 fuel s x y rsq hwf hp1 h
    · exact plane_true_AdjOK fuel s x y rsq hwf h9 h
  intro v hv
  obtain ⟨c1, c2, c3, c4, c5, c6⟩ := hA v hv
  refine ⟨c1, c2, c3, c4, ?_, ?_⟩
  · show (s2.ed (2 * (s2.ed (2 * v + 1)).toNat)).toNat = v
    rw [c6]
    exact Int.toNat_natCast v
  · show (s2.ed (2 * (s2.ed (2 * v)).toNat + 1)).toNat = v
    rw [c5]
    exact Int.toNat_natCast v

/-- Witness for C6: the plane `x = 1/2` (scaled: `x, y, rsq = 1, 0, 1`) cuts
the seed square through vertices 1 and 2, exercising the interpolation,
deletion and compaction paths; the resulting cell satisfies the adjacency
postcondition at vertex 0. -/
theorem plane_true_adjacency_witness :
    0 < (((plane 8 squareCell 1 0 1).getD (false, emptyCell)).2).p ∧
    (0 ≤ (((plane 8 squareCell 1 0 1).getD (false, emptyCell)).2).ed 0 ∧
      (((plane 8 squareCell 1 0 1).getD (false, emptyCell)).2).ed 0 <
        ((((plane 8 squareCell 1 0 1).getD (false, emptyCell)).2).p : ℤ) ∧
      0 ≤ (((plane 8 squareCell 1 0 1).getD (false, emptyCell)).2).ed 1 ∧
      (((plane 8 squareCell 1 0 1).getD (false, emptyCell)).2).ed 1 <
        ((((plane 8 squareCell 1 0 1).getD (false, emptyCell)).2).p : ℤ) ∧
      (((plane 8 squareCell 1 0 1).getD (false, emptyCell)).2).edS
        ((((plane 8 squareCell 1 0 1).getD (false, emptyCell)).2).edP 0) =
        0 ∧
      (((plane 8 squareCell 1 0 1).getD (false, emptyCell)).2).edP
        ((((plane 8 squareCell 1 0 1).getD (false, emptyCell)).2).edS 0) =
        0) := by
  refine ⟨by with_unfolding_all decide, ?_⟩
  have h9 := plane_true_adjacency 8 squareCell 1 0 1
    (((plane 8 squareCell 1 0 1).getD (false, emptyCell)).2)
    (by with_unfolding_all decide) (by with_unfolding_all rfl) 0
    (by with_unfolding_all decide)
  simpa using h9

end Cell
